import Mathlib

/-!
Verification of the phase-cancellation and equivalence-checking core of
`cirq/testing/circuit_compare.py`.

The Python functions `_cancel_qubit_phase`,
`_canonicalize_up_to_terminal_measurement_phase` and
`assert_circuits_with_terminal_measurements_are_equivalent` are embedded
shallowly: numpy complex matrices become functions `ℕ → ℕ → ℂ` together with
an explicit dimension `N` (the source asserts `m1.shape == m2.shape == (n, n)`,
so a single shared dimension is part of the data model); the in-place mutation
of `m1` becomes explicit state passing (the pair of matrices after the call is
returned); the `ValueError` that Python's `min` raises on an empty generator
becomes `Option.none`.  All floating-point arithmetic is modelled as exact real
or complex arithmetic (`np.angle` is `Complex.arg`, `np.abs` is `Complex.abs`,
`np.exp(1j*t)` is `Complex.exp (t * I)`).
-/

namespace CircuitCompare

open Classical

/-- Complex matrices, indexed by row and column; the dimension is carried
separately, mirroring a numpy array of shape `(N, N)`. -/
abbrev Mat := ℕ → ℕ → ℂ

/-- Python's `max(l, key=key)` on a list of naturals: folds left, replacing the
current best only on a strictly larger key, hence returning the first
maximiser.  (`max` of an empty list raises in Python; the `[]` case below is
never reached by the embedded code.) -/
noncomputable def pyMax (key : ℕ → ℝ) : List ℕ → ℕ
  | [] => 0
  | x :: xs => xs.foldl (fun b c => if key b < key c then c else b) x

/-- The key `min(abs(m1[row, c]), abs(m2[row, c]))` used to select each row's
dominant column in `_cancel_qubit_phase`. -/
noncomputable def rowKey (m1 m2 : Mat) (row c : ℕ) : ℝ :=
  min (Complex.abs (m1 row c)) (Complex.abs (m2 row c))

/-- `col = max(range(n), key=lambda c: min(abs(m1[row, c]), abs(m2[row, c])))`. -/
noncomputable def domCol (N : ℕ) (m1 m2 : Mat) (row : ℕ) : ℕ :=
  pyMax (rowKey m1 m2 row) (List.range N)

/-- `prob[row, -1] = np.angle(m1[row, col]) - np.angle(m2[row, col])`. -/
noncomputable def rowTarget (N : ℕ) (m1 m2 : Mat) (row : ℕ) : ℝ :=
  (m1 row (domCol N m1 m2 row)).arg - (m2 row (domCol N m1 m2 row)).arg

/-- The linear problem `prob = np.zeros(shape=(n, len(qubits) + 1))` after the
two filling loops of `_cancel_qubit_phase`: column `i < len(qubits)` holds
`0 if row & (1 << qubits[i]) else 1`, the last column holds the dominant
row phase difference. -/
noncomputable def probInit (N : ℕ) (m1 m2 : Mat) (qubits : List ℕ) : ℕ → ℕ → ℝ :=
  fun row col =>
    if col < qubits.length then
      (if row &&& (1 <<< qubits.getD col 0) ≠ 0 then 0 else 1)
    else if col = qubits.length then rowTarget N m1 m2 row
    else 0

/-- `min(row for row in range(n) if row not in used and prob[row, col])`:
the first element of `range(n)` passing the filter, `none` when the generator
is empty (Python raises `ValueError` there). -/
noncomputable def pick (N : ℕ) (p : ℕ → ℕ → ℝ) (used : List ℕ) (col : ℕ) : Option ℕ :=
  ((List.range N).filter (fun r => decide (r ∉ used ∧ p r col ≠ 0))).head?

/-- One Gram-Schmidt step of `_cancel_qubit_phase` at column `col` with pivot
row `chosen`: the pivot row is divided by its `col` entry, and
`prob[row, :] -= prob[row, col] * prob[chosen_row, :]` for every other row
of the array. -/
noncomputable def elimStep (N : ℕ) (p : ℕ → ℕ → ℝ) (chosen col : ℕ) : ℕ → ℕ → ℝ :=
  fun r c =>
    if r = chosen then p chosen c / p chosen col
    else if r < N then p r c - p r col * (p chosen c / p chosen col)
    else p r c

/-- The Gram-Schmidt loop `for col in range(len(qubits))`, carrying the
`used` set (as a list) and the current `prob`; `none` models the
`ValueError` raised by `min` over an empty generator. -/
noncomputable def elimLoop (N : ℕ) :
    ((ℕ → ℕ → ℝ) × List ℕ) → List ℕ → Option ((ℕ → ℕ → ℝ) × List ℕ)
  | s, [] => some s
  | s, col :: rest =>
    match pick N s.1 s.2 col with
    | none => none
    | some chosen => elimLoop N (elimStep N s.1 chosen col, chosen :: s.2) rest

/-- `chosen_row = max(range(n), key=lambda r: prob[r, col])` in the extraction
loop. -/
noncomputable def extractRow (N : ℕ) (p : ℕ → ℕ → ℝ) (col : ℕ) : ℕ :=
  pyMax (fun r => p r col) (List.range N)

/-- The final loop of `_cancel_qubit_phase`: for each `(col, k)` in
`enumerate(qubits)`, multiply every row of `m1` whose bit `k` is set by
`np.exp(1j * prob[chosen_row, -1])`. -/
noncomputable def applyPhases (N : ℕ) (p : ℕ → ℕ → ℝ) (qubits : List ℕ) (m1 : Mat) : Mat :=
  fun row c =>
    m1 row c *
      (qubits.enum.map (fun ik =>
        if row &&& (1 <<< ik.2) ≠ 0 then
          Complex.exp ((p (extractRow N p ik.1) qubits.length : ℝ) * Complex.I)
        else 1)).prod

/-- `_cancel_qubit_phase(m1, m2, qubits)`.  Returns the pair of matrices after
the call (the source mutates `m1` in place and only reads `m2`), or `none`
when the elimination hits a column with no usable pivot row, where the Python
code raises `ValueError`. -/
noncomputable def cancelQubitPhase (N : ℕ) (m1 m2 : Mat) (qubits : List ℕ) :
    Option (Mat × Mat) :=
  match elimLoop N (probInit N m1 m2 qubits, []) (List.range qubits.length) with
  | none => none
  | some s => some (applyPhases N s.1 qubits m1, m2)

/-- Modelled from the spec: the external collaborators of §6 (Matrix
Extractor, Measurement Locator, terminal-measurement validity) are not part of
`src/`; a circuit is abstracted by the answers those collaborators give for
it.  `allQubits` is `circuit.all_qubits()`, `terminalMeasuredQubits` is the
set of qubits carrying a terminal measurement, `allMeasurementsTerminal` is
`circuit.are_all_measurements_terminal()`, and `unitaryMatrix qs` is
`circuit.to_unitary_matrix(qubits_that_should_be_present=qs)`. -/
structure Circuit (Q : Type) where
  allQubits : Finset Q
  terminalMeasuredQubits : Finset Q
  allMeasurementsTerminal : Bool
  unitaryMatrix : Finset Q → Mat

variable {Q : Type} [LinearOrder Q]

/-- `qubits = circuit1.all_qubits().union(circuit2.all_qubits())` followed by
`order = sorted(qubits)[::-1]`. -/
def canonOrder (c1 c2 : Circuit Q) : List Q :=
  ((c1.allQubits ∪ c2.allQubits).sort (· ≤ ·)).reverse

/-- `ks = [len(order)]` followed by `ks.append(order.index(q))` for each
measured qubit `q` (Python iterates over a set; the spec fixes only that
the enumeration order is consistent, modelled here as the sorted order). -/
def canonKs (c1 c2 : Circuit Q) : List ℕ :=
  (canonOrder c1 c2).length ::
    ((c1.terminalMeasuredQubits.sort (· ≤ ·)).map fun q => (canonOrder c1 c2).indexOf q)

/-- The distinct failures of the equivalence check: the three `assert`s of
`_canonicalize_up_to_terminal_measurement_phase`, the `ValueError` the solver
can raise, and the final mismatch assertion of
`assert_circuits_with_terminal_measurements_are_equivalent`. -/
inductive EquivError
  | nonTerminalActual
  | nonTerminalReference
  | measurementMismatch
  | solverError
  | effectMismatch
deriving DecidableEq

/-- `_canonicalize_up_to_terminal_measurement_phase(circuit1, circuit2)`:
check terminality of both circuits, check the measured sets agree, extract
both matrices over the union of the qubits, build `ks` and run the solver. -/
noncomputable def canonicalizeUpToTerminalMeasurementPhase (c1 c2 : Circuit Q) :
    Except EquivError (Mat × Mat) :=
  if c1.allMeasurementsTerminal then
    if c2.allMeasurementsTerminal then
      if c1.terminalMeasuredQubits = c2.terminalMeasuredQubits then
        match cancelQubitPhase (2 ^ (canonOrder c1 c2).length)
            (c1.unitaryMatrix (c1.allQubits ∪ c2.allQubits))
            (c2.unitaryMatrix (c1.allQubits ∪ c2.allQubits))
            (canonKs c1 c2) with
        | none => .error .solverError
        | some s => .ok s
      else .error .measurementMismatch
    else .error .nonTerminalReference
  else .error .nonTerminalActual

/-- Modelled from the spec: `cirq.linalg.allclose_up_to_global_phase` is not
part of `src/`; per §4.1 step 6 it compares the two matrices for equality up
to a single residual global phase, within absolute tolerance `atol`. -/
def allcloseUpToGlobalPhase (N : ℕ) (m1 m2 : Mat) (atol : ℝ) : Prop :=
  ∃ t : ℝ, ∀ r < N, ∀ c < N,
    Complex.abs (Complex.exp ((t : ℝ) * Complex.I) * m1 r c - m2 r c) ≤ atol

/-- `assert_circuits_with_terminal_measurements_are_equivalent(actual,
reference, atol)`: canonicalize, then `assert
linalg.allclose_up_to_global_phase(m1, m2, atol=atol)`. -/
noncomputable def assertCircuitsEquivalent (c1 c2 : Circuit Q) (atol : ℝ) :
    Except EquivError Unit :=
  match canonicalizeUpToTerminalMeasurementPhase c1 c2 with
  | .error e => .error e
  | .ok s =>
    if allcloseUpToGlobalPhase (2 ^ (canonOrder c1 c2).length) s.1 s.2 atol then .ok ()
    else .error .effectMismatch

/-- A concrete 1-entry-everywhere matrix, used for concrete runs. -/
def oneMat : Mat := fun _ _ => 1

/-- The identity matrix (of any dimension), used for concrete runs. -/
def idMat : Mat := fun r c => if r = c then 1 else 0

/-- The 2×2 diagonal matrix `diag(i, 1)`, used for concrete runs. -/
def c4Mat : Mat := fun r c =>
  if r = 0 ∧ c = 0 then Complex.I else if r = 1 ∧ c = 1 then 1 else 0

/-! ### Description of the elimination run on an Oracle-shaped DOF list

The DOF lists passed by `_canonicalize_up_to_terminal_measurement_phase` have
the shape `n :: ks` with `n` the number of qubits (the global-phase sentinel)
and `ks` distinct qubit-ordering indices below `n`.  On such a list the
Gram-Schmidt loop of `_cancel_qubit_phase` always picks row `0` for column
`0` and row `2^ks[i]` for column `i+1`; the definitions below give the exact
contents of `prob` after `t` elimination steps, for an arbitrary last column
`d` (the dominant row phase differences). -/

/-- `ks[i]` (with irrelevant default `0`). -/
def ksIdx (ks : List ℕ) (i : ℕ) : ℕ := ks.getD i 0

/-- The pivot row of DOF column `i + 1`: the basis state with only bit
`ks[i]` set. -/
def eRow (ks : List ℕ) (i : ℕ) : ℕ := 2 ^ ksIdx ks i

/-- The value of `prob[0, -1]` after `t` elimination steps. -/
noncomputable def tSum (ks : List ℕ) (d : ℕ → ℝ) (t : ℕ) : ℝ :=
  (∑ i ∈ Finset.range (t - 1), d (eRow ks i)) - ((t : ℝ) - 2) * d 0

/-- Row `0` of `prob` after `t ≥ 1` elimination steps. -/
noncomputable def rowZeroVal (ks : List ℕ) (d : ℕ → ℝ) (t c : ℕ) : ℝ :=
  if c = 0 then 1
  else if c < t then 0
  else if c ≤ ks.length then 1
  else if c = ks.length + 1 then tSum ks d t
  else 0

/-- Row `2^ks[i]` of `prob` after it has been chosen as the pivot of column
`i + 1` (it no longer changes afterwards). -/
noncomputable def pivotRowVal (ks : List ℕ) (d : ℕ → ℝ) (i c : ℕ) : ℝ :=
  if c = i + 1 then 1
  else if c = ks.length + 1 then d 0 - d (eRow ks i)
  else 0

/-- Any other row `r` of `prob` after `t ≥ 1` elimination steps. -/
noncomputable def freeRowVal (ks : List ℕ) (d : ℕ → ℝ) (t r c : ℕ) : ℝ :=
  if c < t then 0
  else if c ≤ ks.length then (if Nat.testBit r (ksIdx ks (c - 1)) then -1 else 0)
  else if c = ks.length + 1 then
    d r - d 0 + ∑ i ∈ Finset.range (t - 1),
      (if Nat.testBit r (ksIdx ks i) then d 0 - d (eRow ks i) else 0)
  else 0

/-- The `used` list after `t ≥ 1` elimination steps. -/
def usedList (ks : List ℕ) (t : ℕ) : List ℕ :=
  ((List.range (t - 1)).map (eRow ks)).reverse ++ [0]

/-- The full contents of `prob` after `t ≥ 1` elimination steps on the DOF
list `nq :: ks`. -/
def ElimInv (N : ℕ) (ks : List ℕ) (d : ℕ → ℝ) (t : ℕ) (p : ℕ → ℕ → ℝ) : Prop :=
  (∀ c, p 0 c = rowZeroVal ks d t c) ∧
  (∀ i, i < t - 1 → ∀ c, p (eRow ks i) c = pivotRowVal ks d i c) ∧
  (∀ r, r < N → r ≠ 0 → (∀ i, i < t - 1 → r ≠ eRow ks i) →
    ∀ c, p r c = freeRowVal ks d t r c)

/-- The product of the measurement-phase corrections applied to a row by the
final loop of `_cancel_qubit_phase` on the DOF list `nq :: ks` (the factors
for the non-sentinel DOFs). -/
noncomputable def corrProd (ks : List ℕ) (d : ℕ → ℝ) (row : ℕ) : ℂ :=
  ((List.range ks.length).map (fun j =>
    if row &&& (1 <<< ksIdx ks j) ≠ 0 then
      Complex.exp ((d 0 - d (eRow ks j)) * Complex.I)
    else 1)).prod

/-- An independent unit phase on each measured-qubit DOF: the product of the
phases `p k` over the DOFs `k ∈ ks` whose bit is set in `row`. -/
noncomputable def phaseProd (ks : List ℕ) (p : ℕ → ℂ) (row : ℕ) : ℂ :=
  ((List.range ks.length).map (fun j =>
    if Nat.testBit row (ksIdx ks j) then p (ksIdx ks j) else 1)).prod

/-- The verdict of the equivalence comparison for given matrices, DOF list and
tolerance: run `_cancel_qubit_phase` on (a copy of) `m1` against `m2` and,
when the solver does not raise, compare the resulting matrices up to a global
phase within `atol`; `none` models the `ValueError` path. -/
noncomputable def cancelVerdict (N : ℕ) (m1 m2 : Mat) (qubits : List ℕ) (atol : ℝ) :
    Option Prop :=
  (cancelQubitPhase N m1 m2 qubits).map (fun s => allcloseUpToGlobalPhase N s.1 s.2 atol)

/-- Relation between the states of two elimination runs: the `prob` array of
`s'` is that of `s` with its rows relabelled by the permutation `ρ`, where `ρ`
only moves rows already used as pivots (so the two runs agree on every
untouched row), the two `used` sets coincide, and every pivot is a genuine
row (`< N`). -/
def StateRel (N : ℕ) (ρ : Equiv.Perm ℕ) (s s' : (ℕ → ℕ → ℝ) × List ℕ) : Prop :=
  (∀ r, r ∉ s.2 → ρ r = r) ∧
  (∀ r, r ∈ s.2 ↔ r ∈ s'.2) ∧
  (∀ r ∈ s.2, r < N) ∧
  (∀ r c, s'.1 r c = s.1 (ρ r) c)

/-- After the elimination has processed the columns in `cols`, each of those
columns of the `prob` array is a standard basis vector supported on its pivot
row (which is in the `used` set). -/
def UnitCols (N : ℕ) (cols : List ℕ) (s : (ℕ → ℕ → ℝ) × List ℕ) : Prop :=
  ∀ c ∈ cols, ∃ w, w ∈ s.2 ∧ ∀ r, r < N → s.1 r c = if r = w then 1 else 0

/-! ### Basic lemmas about the embedded primitives -/

theorem and_shift_ne_zero_iff (r k : ℕ) : r &&& (1 <<< k) ≠ 0 ↔ Nat.testBit r k = true := by
  rw [Nat.shiftLeft_eq, one_mul, Nat.and_two_pow]
  cases h : Nat.testBit r k
  · simp
  · simp only [Bool.toNat_true, one_mul, iff_true]
    exact (pow_pos (by norm_num : (0:ℕ) < 2) k).ne'

theorem pyMaxStep_mem (key : ℕ → ℝ) (xs : List ℕ) (a : ℕ) :
    xs.foldl (fun b c => if key b < key c then c else b) a = a ∨
      xs.foldl (fun b c => if key b < key c then c else b) a ∈ xs := by
  induction xs generalizing a with
  | nil => exact Or.inl rfl
  | cons y ys ih =>
    rw [List.foldl_cons]
    rcases ih (if key a < key y then y else a) with h | h
    · rw [h]
      by_cases hc : key a < key y
      · exact Or.inr (by simp [hc])
      · exact Or.inl (by simp [hc])
    · exact Or.inr (List.mem_cons_of_mem _ h)

theorem key_le_pyMaxStep (key : ℕ → ℝ) (xs : List ℕ) (a : ℕ) :
    key a ≤ key (xs.foldl (fun b c => if key b < key c then c else b) a) := by
  induction xs generalizing a with
  | nil => exact le_refl _
  | cons y ys ih =>
    rw [List.foldl_cons]
    refine le_trans ?_ (ih (if key a < key y then y else a))
    by_cases hc : key a < key y
    · simp [hc]; exact le_of_lt hc
    · simp [hc]

theorem mem_key_le_pyMaxStep (key : ℕ → ℝ) (xs : List ℕ) (a : ℕ) :
    ∀ y ∈ xs, key y ≤ key (xs.foldl (fun b c => if key b < key c then c else b) a) := by
  induction xs generalizing a with
  | nil => intro y hy; cases hy
  | cons z zs ih =>
    intro y hy
    rw [List.foldl_cons]
    rcases List.mem_cons.mp hy with rfl | hy
    · refine le_trans ?_ (key_le_pyMaxStep key zs (if key a < key y then y else a))
      by_cases hc : key a < key y
      · simp [hc]
      · simp [hc]; exact le_of_not_lt hc
    · exact ih _ y hy

theorem pyMax_mem (key : ℕ → ℝ) (x : ℕ) (xs : List ℕ) : pyMax key (x :: xs) ∈ x :: xs := by
  rw [pyMax]
  rcases pyMaxStep_mem key xs x with h | h
  · rw [h]; exact List.mem_cons_self x xs
  · exact List.mem_cons_of_mem _ h

theorem key_le_pyMax (key : ℕ → ℝ) (x : ℕ) (xs : List ℕ) :
    ∀ y ∈ x :: xs, key y ≤ key (pyMax key (x :: xs)) := by
  intro y hy
  rcases List.mem_cons.mp hy with rfl | hy
  · exact key_le_pyMaxStep key xs y
  · exact mem_key_le_pyMaxStep key xs x y hy

theorem range_eq_cons (N : ℕ) (h : 0 < N) :
    List.range N = 0 :: (List.range (N - 1)).map Nat.succ := by
  obtain ⟨M, rfl⟩ := Nat.exists_eq_add_of_lt h
  simp only [Nat.zero_add, Nat.add_sub_cancel]
  exact List.range_succ_eq_map M

theorem pyMax_range_mem (key : ℕ → ℝ) (N : ℕ) (h : 0 < N) :
    pyMax key (List.range N) ∈ List.range N := by
  rw [range_eq_cons N h]
  exact pyMax_mem key _ _

theorem pyMax_range_lt (key : ℕ → ℝ) (N : ℕ) (h : 0 < N) : pyMax key (List.range N) < N :=
  List.mem_range.mp (pyMax_range_mem key N h)

theorem key_le_pyMax_range (key : ℕ → ℝ) (N : ℕ) (y : ℕ) (hy : y < N) :
    key y ≤ key (pyMax key (List.range N)) := by
  have h : 0 < N := Nat.lt_of_le_of_lt (Nat.zero_le y) hy
  rw [range_eq_cons N h]
  exact key_le_pyMax key _ _ y (by rw [← range_eq_cons N h]; exact List.mem_range.mpr hy)

theorem pyMax_range_eq_of_unique (key : ℕ → ℝ) (N x : ℕ) (hx : x < N)
    (huniq : ∀ y < N, y ≠ x → key y < key x) : pyMax key (List.range N) = x := by
  have h0 : 0 < N := Nat.lt_of_le_of_lt (Nat.zero_le x) hx
  by_contra hne
  have h1 : key (pyMax key (List.range N)) < key x :=
    huniq _ (pyMax_range_lt key N h0) hne
  have h2 : key x ≤ key (pyMax key (List.range N)) := key_le_pyMax_range key N x hx
  exact absurd h2 (not_le_of_lt h1)

/-! ### Lemmas about `pick` -/

theorem pick_eq_some_of (N : ℕ) (p : ℕ → ℕ → ℝ) (used : List ℕ) (col x : ℕ)
    (hx : x < N) (hxu : x ∉ used) (hxp : p x col ≠ 0)
    (hmin : ∀ y < x, y ∈ used ∨ p y col = 0) : pick N p used col = some x := by
  unfold pick
  have hsplit : List.range N = List.range' 0 x ++ List.range' x (N - x) := by
    rw [List.range_eq_range']
    have h := List.range'_append 0 x (N - x) 1
    simp only [Nat.one_mul, Nat.zero_add] at h
    rw [h]
    congr 1
    omega
  rw [hsplit, List.filter_append]
  have h1 : (List.range' 0 x).filter (fun r => decide (r ∉ used ∧ p r col ≠ 0)) = [] := by
    rw [List.filter_eq_nil_iff]
    intro a ha
    have hax : a < x := by
      have := List.mem_range'_1.mp ha
      omega
    simp only [decide_eq_true_eq]
    rcases hmin a hax with h | h
    · exact fun hc => hc.1 h
    · exact fun hc => hc.2 h
  obtain ⟨m, hm⟩ : ∃ m, N - x = m + 1 := ⟨N - x - 1, by omega⟩
  have hcond : decide (x ∉ used ∧ p x col ≠ 0) = true := by
    simp only [decide_eq_true_eq]
    exact ⟨hxu, hxp⟩
  rw [h1, List.nil_append, hm, List.range'_succ]
  simp only [List.filter_cons, hcond, if_true, List.head?_cons]

theorem pick_eq_none_of (N : ℕ) (p : ℕ → ℕ → ℝ) (used : List ℕ) (col : ℕ)
    (h : ∀ r < N, r ∈ used ∨ p r col = 0) : pick N p used col = none := by
  unfold pick
  have hnil : (List.range N).filter (fun r => decide (r ∉ used ∧ p r col ≠ 0)) = [] := by
    rw [List.filter_eq_nil_iff]
    intro a ha
    simp only [decide_eq_true_eq]
    rcases h a (List.mem_range.mp ha) with h' | h'
    · exact fun hc => hc.1 h'
    · exact fun hc => hc.2 h'
  rw [hnil]
  rfl

/-! ### Lemmas about `elimLoop` -/

theorem elimLoop_append (N : ℕ) (s : (ℕ → ℕ → ℝ) × List ℕ) (l₁ l₂ : List ℕ) :
    elimLoop N s (l₁ ++ l₂) = (elimLoop N s l₁).bind (fun s2 => elimLoop N s2 l₂) := by
  induction l₁ generalizing s with
  | nil => rw [List.nil_append, elimLoop, Option.some_bind]
  | cons col rest ih =>
    rw [List.cons_append, elimLoop, elimLoop]
    rcases h : pick N s.1 s.2 col with _ | chosen
    · rfl
    · exact ih _

/-! ### Bits, pivot rows and the used list -/

theorem and_shift_eq_zero_iff (r k : ℕ) : r &&& (1 <<< k) = 0 ↔ Nat.testBit r k = false := by
  have h := not_iff_not.mpr (and_shift_ne_zero_iff r k)
  rw [not_not, Bool.not_eq_true] at h
  exact h

theorem ksIdx_mem (ks : List ℕ) (i : ℕ) (hi : i < ks.length) : ksIdx ks i ∈ ks := by
  unfold ksIdx
  rw [List.getD_eq_get _ _ hi]
  exact List.get_mem ks i hi

theorem ksIdx_lt (ks : List ℕ) (nq : ℕ) (hks : ∀ k ∈ ks, k < nq) (i : ℕ)
    (hi : i < ks.length) : ksIdx ks i < nq :=
  hks _ (ksIdx_mem ks i hi)

theorem ksIdx_inj (ks : List ℕ) (hnd : ks.Nodup) (i j : ℕ) (hi : i < ks.length)
    (hj : j < ks.length) (hne : i ≠ j) : ksIdx ks i ≠ ksIdx ks j := by
  unfold ksIdx
  rw [List.getD_eq_get _ _ hi, List.getD_eq_get _ _ hj]
  intro h
  have := hnd.get_inj_iff.mp h
  exact hne (by simpa using this)

theorem eRow_ne_zero (ks : List ℕ) (i : ℕ) : eRow ks i ≠ 0 :=
  pow_ne_zero _ two_ne_zero

theorem eRow_lt (ks : List ℕ) (nq : ℕ) (hks : ∀ k ∈ ks, k < nq) (i : ℕ)
    (hi : i < ks.length) : eRow ks i < 2 ^ nq :=
  Nat.pow_lt_pow_right (by norm_num) (ksIdx_lt ks nq hks i hi)

theorem eRow_inj (ks : List ℕ) (hnd : ks.Nodup) (i j : ℕ) (hi : i < ks.length)
    (hj : j < ks.length) (hne : i ≠ j) : eRow ks i ≠ eRow ks j := by
  unfold eRow
  intro h
  exact ksIdx_inj ks hnd i j hi hj hne (Nat.pow_right_injective (le_refl 2) h)

theorem testBit_eRow_self (ks : List ℕ) (i : ℕ) :
    Nat.testBit (eRow ks i) (ksIdx ks i) = true :=
  Nat.testBit_two_pow_self

theorem testBit_eRow_ne (ks : List ℕ) (hnd : ks.Nodup) (i j : ℕ) (hi : i < ks.length)
    (hj : j < ks.length) (hne : i ≠ j) :
    Nat.testBit (eRow ks i) (ksIdx ks j) = false :=
  Nat.testBit_two_pow_of_ne (ksIdx_inj ks hnd i j hi hj hne)

theorem testBit_eRow_sentinel (ks : List ℕ) (nq : ℕ) (hks : ∀ k ∈ ks, k < nq) (i : ℕ)
    (hi : i < ks.length) : Nat.testBit (eRow ks i) nq = false :=
  Nat.testBit_two_pow_of_ne (ne_of_lt (ksIdx_lt ks nq hks i hi))

theorem mem_usedList (ks : List ℕ) (t r : ℕ) :
    r ∈ usedList ks t ↔ r = 0 ∨ ∃ i, i < t - 1 ∧ r = eRow ks i := by
  unfold usedList
  rw [List.mem_append, List.mem_reverse, List.mem_map]
  constructor
  · rintro (⟨i, hi, rfl⟩ | h)
    · exact Or.inr ⟨i, List.mem_range.mp hi, rfl⟩
    · left
      simpa using h
  · rintro (rfl | ⟨i, hi, rfl⟩)
    · right
      simp
    · left
      exact ⟨i, List.mem_range.mpr hi, rfl⟩

theorem usedList_succ (ks : List ℕ) (t : ℕ) (ht : 1 ≤ t) :
    usedList ks (t + 1) = eRow ks (t - 1) :: usedList ks t := by
  unfold usedList
  obtain ⟨u, rfl⟩ : ∃ u, t = u + 1 := ⟨t - 1, by omega⟩
  simp [List.range_succ]

theorem usedList_one (ks : List ℕ) : usedList ks 1 = [0] := rfl

/-! ### The initial linear problem on an Oracle-shaped DOF list -/

theorem probInit_zero_col (nq : ℕ) (ks : List ℕ) (m1 m2 : Mat) (r : ℕ) (hr : r < 2 ^ nq) :
    probInit (2 ^ nq) m1 m2 (nq :: ks) r 0 = 1 := by
  unfold probInit
  rw [if_pos (by simp), if_neg]
  rw [List.getD_cons_zero, and_shift_ne_zero_iff, Nat.testBit_eq_false_of_lt hr]
  exact Bool.false_ne_true

theorem probInit_succ_col (nq : ℕ) (ks : List ℕ) (m1 m2 : Mat) (i r : ℕ)
    (hi : i < ks.length) :
    probInit (2 ^ nq) m1 m2 (nq :: ks) r (i + 1) =
      if Nat.testBit r (ksIdx ks i) then 0 else 1 := by
  unfold probInit
  rw [if_pos (by simp [Nat.succ_lt_succ_iff]; omega)]
  rw [List.getD_cons_succ]
  by_cases hb : Nat.testBit r (ksIdx ks i)
  · rw [if_pos, if_pos hb]
    rw [and_shift_ne_zero_iff]
    exact hb
  · rw [if_neg, if_neg hb]
    rw [and_shift_ne_zero_iff]
    exact hb

theorem probInit_last_col (nq : ℕ) (ks : List ℕ) (m1 m2 : Mat) (r : ℕ) :
    probInit (2 ^ nq) m1 m2 (nq :: ks) r (ks.length + 1) =
      rowTarget (2 ^ nq) m1 m2 r := by
  unfold probInit
  rw [if_neg (by simp), if_pos (by simp)]

theorem probInit_big_col (nq : ℕ) (ks : List ℕ) (m1 m2 : Mat) (r c : ℕ)
    (hc : ks.length + 1 < c) :
    probInit (2 ^ nq) m1 m2 (nq :: ks) r c = 0 := by
  unfold probInit
  rw [if_neg (by simp; omega), if_neg (by simp; omega)]

theorem tSum_one (ks : List ℕ) (d : ℕ → ℝ) : tSum ks d 1 = d 0 := by
  unfold tSum
  norm_num

theorem tSum_succ (ks : List ℕ) (d : ℕ → ℝ) (t : ℕ) (ht : 1 ≤ t) :
    tSum ks d (t + 1) = tSum ks d t + d (eRow ks (t - 1)) - d 0 := by
  unfold tSum
  obtain ⟨u, rfl⟩ : ∃ u, t = u + 1 := ⟨t - 1, by omega⟩
  rw [Nat.add_sub_cancel, Nat.add_sub_cancel, Finset.sum_range_succ]
  push_cast
  ring

/-! ### The effect of one elimination step on each row class -/

theorem freeRowVal_chosen (ks : List ℕ) (hnd : ks.Nodup) (d : ℕ → ℝ) (u c : ℕ)
    (hu : u + 1 ≤ ks.length) :
    freeRowVal ks d (u + 1) (eRow ks u) c = -(pivotRowVal ks d u c) := by
  have hul : u < ks.length := by omega
  unfold freeRowVal pivotRowVal
  by_cases h1 : c < u + 1
  · rw [if_pos h1, if_neg (by omega : ¬c = u + 1), if_neg (by omega : ¬c = ks.length + 1)]
    norm_num
  · rw [if_neg h1]
    by_cases h2 : c ≤ ks.length
    · rw [if_pos h2]
      by_cases h3 : c = u + 1
      · rw [if_pos h3]
        subst h3
        rw [Nat.add_sub_cancel, testBit_eRow_self]
        norm_num
      · rw [if_neg h3, if_neg (by omega : ¬c = ks.length + 1)]
        rw [testBit_eRow_ne ks hnd u (c - 1) hul (by omega) (by omega)]
        norm_num
    · rw [if_neg h2]
      by_cases h4 : c = ks.length + 1
      · rw [if_pos h4, if_neg (by omega : ¬c = u + 1), if_pos h4]
        have hsum : (∑ i ∈ Finset.range (u + 1 - 1),
            (if Nat.testBit (eRow ks u) (ksIdx ks i) then d 0 - d (eRow ks i) else 0)) = 0 := by
          apply Finset.sum_eq_zero
          intro i hi
          have hiu : i < u := by
            have := Finset.mem_range.mp hi
            omega
          rw [testBit_eRow_ne ks hnd u i hul (by omega) (by omega)]
          simp
        rw [hsum]
        ring
      · rw [if_neg h4, if_neg (by omega : ¬c = u + 1), if_neg h4]
        norm_num

theorem pivotRowVal_self_col (ks : List ℕ) (d : ℕ → ℝ) (u : ℕ) :
    pivotRowVal ks d u (u + 1) = 1 := by
  unfold pivotRowVal
  rw [if_pos rfl]

theorem pivotRowVal_unprocessed (ks : List ℕ) (d : ℕ → ℝ) (i u : ℕ) (hiu : i ≠ u)
    (hu : u + 1 ≤ ks.length) : pivotRowVal ks d i (u + 1) = 0 := by
  unfold pivotRowVal
  rw [if_neg (by omega), if_neg (by omega)]

theorem freeRowVal_chosen_div (ks : List ℕ) (hnd : ks.Nodup) (d : ℕ → ℝ) (u c : ℕ)
    (hu : u + 1 ≤ ks.length) :
    freeRowVal ks d (u + 1) (eRow ks u) c / freeRowVal ks d (u + 1) (eRow ks u) (u + 1) =
      pivotRowVal ks d u c := by
  rw [freeRowVal_chosen ks hnd d u c hu, freeRowVal_chosen ks hnd d u (u + 1) hu,
    pivotRowVal_self_col]
  ring

theorem rowZeroVal_self_col (ks : List ℕ) (d : ℕ → ℝ) (u : ℕ) (hu : u + 1 ≤ ks.length) :
    rowZeroVal ks d (u + 1) (u + 1) = 1 := by
  unfold rowZeroVal
  rw [if_neg (by omega), if_neg (by omega : ¬u + 1 < u + 1), if_pos hu]

theorem rowZeroVal_step (ks : List ℕ) (d : ℕ → ℝ) (u c : ℕ) (hu : u + 1 ≤ ks.length) :
    rowZeroVal ks d (u + 1) c - rowZeroVal ks d (u + 1) (u + 1) * pivotRowVal ks d u c =
      rowZeroVal ks d (u + 2) c := by
  rw [rowZeroVal_self_col ks d u hu, one_mul]
  unfold rowZeroVal pivotRowVal
  by_cases h1 : c = 0
  · subst h1
    rw [if_pos rfl, if_pos rfl, if_neg (by omega), if_neg (by omega)]
    norm_num
  · rw [if_neg h1, if_neg h1]
    by_cases h2 : c < u + 1
    · rw [if_pos h2, if_pos (by omega : c < u + 2), if_neg (by omega), if_neg (by omega)]
      norm_num
    · by_cases h3 : c = u + 1
      · rw [if_neg h2, if_pos (by omega : c < u + 2), if_pos (by omega : c ≤ ks.length),
          if_pos h3]
        norm_num
      · by_cases h4 : c ≤ ks.length
        · rw [if_neg h2, if_neg (by omega : ¬c < u + 2), if_pos h4, if_pos h4,
            if_neg h3, if_neg (by omega : ¬c = ks.length + 1)]
          norm_num
        · by_cases h5 : c = ks.length + 1
          · rw [if_neg h2, if_neg (by omega : ¬c < u + 2), if_neg h4, if_neg h4,
              if_pos h5, if_pos h5, if_neg h3, if_pos h5]
            rw [tSum_succ ks d (u + 1) (by omega), Nat.add_sub_cancel]
            ring
          · rw [if_neg h2, if_neg (by omega : ¬c < u + 2), if_neg h4, if_neg h4,
              if_neg h5, if_neg h5, if_neg h3, if_neg h5]
            norm_num

theorem freeRowVal_step (ks : List ℕ) (d : ℕ → ℝ) (u r c : ℕ) (hu : u + 1 ≤ ks.length) :
    freeRowVal ks d (u + 1) r c - freeRowVal ks d (u + 1) r (u + 1) * pivotRowVal ks d u c =
      freeRowVal ks d (u + 2) r c := by
  have hcol : freeRowVal ks d (u + 1) r (u + 1) =
      if Nat.testBit r (ksIdx ks u) then -1 else 0 := by
    unfold freeRowVal
    rw [if_neg (by omega), if_pos hu, Nat.add_sub_cancel]
  rw [hcol]
  unfold freeRowVal pivotRowVal
  by_cases h2 : c < u + 1
  · rw [if_pos h2, if_pos (by omega : c < u + 2), if_neg (by omega : ¬c = u + 1),
      if_neg (by omega : ¬c = ks.length + 1)]
    norm_num
  · by_cases h3 : c = u + 1
    · rw [if_neg h2, if_pos (by omega : c < u + 2), if_pos (by omega : c ≤ ks.length),
        if_pos h3]
      subst h3
      rw [Nat.add_sub_cancel]
      by_cases hb : Nat.testBit r (ksIdx ks u)
      · rw [if_pos hb]
        ring
      · rw [if_neg hb]
        ring
    · by_cases h4 : c ≤ ks.length
      · rw [if_neg h2, if_neg (by omega : ¬c < u + 2), if_pos h4, if_pos h4,
          if_neg h3, if_neg (by omega : ¬c = ks.length + 1)]
        by_cases hb : Nat.testBit r (ksIdx ks u)
        · rw [if_pos hb]
          ring
        · rw [if_neg hb]
          ring
      · by_cases h5 : c = ks.length + 1
        · rw [if_neg h2, if_neg (by omega : ¬c < u + 2), if_neg h4, if_neg h4,
            if_pos h5, if_pos h5, if_neg h3, if_pos h5]
          rw [show u + 2 - 1 = u + 1 from rfl, Nat.add_sub_cancel, Finset.sum_range_succ]
          by_cases hb : Nat.testBit r (ksIdx ks u)
          · rw [if_pos hb, if_pos hb]
            ring
          · rw [if_neg hb, if_neg hb]
            ring
        · rw [if_neg h2, if_neg (by omega : ¬c < u + 2), if_neg h4, if_neg h4,
            if_neg h5, if_neg h5, if_neg h3, if_neg h5]
          by_cases hb : Nat.testBit r (ksIdx ks u)
          · rw [if_pos hb]
            ring
          · rw [if_neg hb]
            ring

/-! ### The elimination invariant -/

theorem elim_step_inv (N : ℕ) (ks : List ℕ) (hnd : ks.Nodup)
    (hksN : ∀ i, i < ks.length → eRow ks i < N)
    (d : ℕ → ℝ) (u : ℕ) (hu : u + 1 ≤ ks.length) (p : ℕ → ℕ → ℝ)
    (hInv : ElimInv N ks d (u + 1) p) :
    pick N p (usedList ks (u + 1)) (u + 1) = some (eRow ks u) ∧
    ElimInv N ks d (u + 2) (elimStep N p (eRow ks u) (u + 1)) := by
  obtain ⟨hz, hpiv, hfree⟩ := hInv
  have hul : u < ks.length := by omega
  have heN : eRow ks u < N := hksN u hul
  have hchosen_ne : ∀ i, i < u → eRow ks u ≠ eRow ks i := fun i hi =>
    eRow_inj ks hnd u i hul (by omega) (by omega)
  have hch : ∀ c, p (eRow ks u) c = freeRowVal ks d (u + 1) (eRow ks u) c :=
    fun c => hfree (eRow ks u) heN (eRow_ne_zero ks u) (fun i hi => hchosen_ne i hi) c
  constructor
  · apply pick_eq_some_of N p _ (u + 1) (eRow ks u) heN
    · intro hmem
      rcases (mem_usedList ks (u + 1) (eRow ks u)).mp hmem with h0 | ⟨i, hi, he⟩
      · exact eRow_ne_zero ks u h0
      · exact hchosen_ne i hi he
    · rw [hch (u + 1), freeRowVal_chosen ks hnd d u (u + 1) hu, pivotRowVal_self_col]
      norm_num
    · intro y hy
      by_cases hyu : y ∈ usedList ks (u + 1)
      · exact Or.inl hyu
      · right
        have hyN : y < N := lt_trans hy heN
        rw [mem_usedList] at hyu
        push_neg at hyu
        rw [hfree y hyN hyu.1 (fun i hi => hyu.2 i hi)]
        unfold freeRowVal
        rw [if_neg (by omega : ¬u + 1 < u + 1), if_pos hu, Nat.add_sub_cancel]
        have hbf : ¬Nat.testBit y (ksIdx ks u) = true := by
          intro hb
          have hge := Nat.testBit_implies_ge hb
          unfold eRow at hy
          omega
        rw [if_neg hbf]
  · refine ⟨?_, ?_, ?_⟩
    · intro c
      unfold elimStep
      rw [if_neg (fun h => eRow_ne_zero ks u h.symm),
        if_pos (lt_of_le_of_lt (Nat.zero_le _) heN)]
      rw [hz c, hz (u + 1), hch c, hch (u + 1), freeRowVal_chosen_div ks hnd d u c hu]
      exact rowZeroVal_step ks d u c hu
    · intro i hi c
      by_cases hiu : i = u
      · rw [hiu]
        unfold elimStep
        rw [if_pos rfl, hch c, hch (u + 1)]
        exact freeRowVal_chosen_div ks hnd d u c hu
      · have hilt : i < u := by omega
        unfold elimStep
        rw [if_neg (fun h => hchosen_ne i hilt h.symm), if_pos (hksN i (by omega))]
        rw [hpiv i hilt c, hpiv i hilt (u + 1), hch c, hch (u + 1),
          freeRowVal_chosen_div ks hnd d u c hu,
          pivotRowVal_unprocessed ks d i u hiu hu]
        ring
    · intro r hrN hr0 hrne c
      have hrch : r ≠ eRow ks u := hrne u (by omega)
      unfold elimStep
      rw [if_neg hrch, if_pos hrN]
      rw [hfree r hrN hr0 (fun i hi => hrne i (by omega)) c,
        hfree r hrN hr0 (fun i hi => hrne i (by omega)) (u + 1),
        hch c, hch (u + 1), freeRowVal_chosen_div ks hnd d u c hu]
      exact freeRowVal_step ks d u r c hu

theorem elim_base (N : ℕ) (ks : List ℕ) (hN : 0 < N)
    (d : ℕ → ℝ) (p0 : ℕ → ℕ → ℝ)
    (hp0z : ∀ r, r < N → p0 r 0 = 1)
    (hp0succ : ∀ i r, i < ks.length →
      p0 r (i + 1) = if Nat.testBit r (ksIdx ks i) then 0 else 1)
    (hp0last : ∀ r, p0 r (ks.length + 1) = d r)
    (hp0big : ∀ r c, ks.length + 1 < c → p0 r c = 0) :
    elimLoop N (p0, []) (List.range 1) = some (elimStep N p0 0 0, usedList ks 1) ∧
    ElimInv N ks d 1 (elimStep N p0 0 0) := by
  have hpick : pick N p0 [] 0 = some 0 := by
    apply pick_eq_some_of N p0 [] 0 0 hN (List.not_mem_nil 0)
    · rw [hp0z 0 hN]
      norm_num
    · intro y hy
      exact absurd hy (Nat.not_lt_zero y)
  have hval : ∀ c, p0 0 c = rowZeroVal ks d 1 c := by
    intro c
    rcases c with _ | c
    · rw [hp0z 0 hN]
      unfold rowZeroVal
      rw [if_pos rfl]
    · by_cases hc1 : c < ks.length
      · rw [hp0succ c 0 hc1, Nat.zero_testBit, if_neg Bool.false_ne_true]
        unfold rowZeroVal
        rw [if_neg (by omega : ¬c + 1 = 0), if_neg (by omega : ¬c + 1 < 1),
          if_pos (by omega : c + 1 ≤ ks.length)]
      · by_cases hc2 : c = ks.length
        · subst hc2
          rw [hp0last 0]
          unfold rowZeroVal
          rw [if_neg (by omega : ¬ks.length + 1 = 0), if_neg (by omega : ¬ks.length + 1 < 1),
            if_neg (by omega : ¬ks.length + 1 ≤ ks.length), if_pos rfl, tSum_one]
        · rw [hp0big 0 (c + 1) (by omega)]
          unfold rowZeroVal
          rw [if_neg (by omega), if_neg (by omega : ¬c + 1 < 1),
            if_neg (by omega : ¬c + 1 ≤ ks.length), if_neg (by omega : ¬c + 1 = ks.length + 1)]
  constructor
  · have hr1 : List.range 1 = [0] := rfl
    rw [hr1]
    simp only [elimLoop, hpick]
    rfl
  · refine ⟨?_, ?_, ?_⟩
    · intro c
      unfold elimStep
      rw [if_pos rfl, hp0z 0 hN, div_one]
      exact hval c
    · intro i hi c
      exact absurd hi (by omega)
    · intro r hrN hr0 _ c
      unfold elimStep
      rw [if_neg hr0, if_pos hrN, hp0z 0 hN, div_one, hp0z r hrN, one_mul]
      rcases c with _ | c
      · rw [hp0z 0 hN, hp0z r hrN]
        unfold freeRowVal
        rw [if_pos (by omega)]
        norm_num
      · by_cases hc1 : c < ks.length
        · rw [hp0succ c 0 hc1, hp0succ c r hc1, Nat.zero_testBit, if_neg Bool.false_ne_true]
          unfold freeRowVal
          rw [if_neg (by omega : ¬c + 1 < 1), if_pos (by omega : c + 1 ≤ ks.length),
            Nat.add_sub_cancel]
          by_cases hb : Nat.testBit r (ksIdx ks c)
          · rw [if_pos hb, if_pos hb]
            norm_num
          · rw [if_neg hb, if_neg hb]
            norm_num
        · by_cases hc2 : c = ks.length
          · subst hc2
            rw [hp0last 0, hp0last r]
            unfold freeRowVal
            rw [if_neg (by omega : ¬ks.length + 1 < 1),
              if_neg (by omega : ¬ks.length + 1 ≤ ks.length), if_pos rfl]
            norm_num
          · rw [hp0big 0 (c + 1) (by omega), hp0big r (c + 1) (by omega)]
            unfold freeRowVal
            rw [if_neg (by omega : ¬c + 1 < 1),
              if_neg (by omega : ¬c + 1 ≤ ks.length), if_neg (by omega : ¬c + 1 = ks.length + 1)]
            norm_num

theorem elim_invariant (N : ℕ) (ks : List ℕ) (hnd : ks.Nodup)
    (hksN : ∀ i, i < ks.length → eRow ks i < N) (hN : 0 < N)
    (d : ℕ → ℝ) (p0 : ℕ → ℕ → ℝ)
    (hp0z : ∀ r, r < N → p0 r 0 = 1)
    (hp0succ : ∀ i r, i < ks.length →
      p0 r (i + 1) = if Nat.testBit r (ksIdx ks i) then 0 else 1)
    (hp0last : ∀ r, p0 r (ks.length + 1) = d r)
    (hp0big : ∀ r c, ks.length + 1 < c → p0 r c = 0) :
    ∀ t, 1 ≤ t → t ≤ ks.length + 1 →
      ∃ p, elimLoop N (p0, []) (List.range t) = some (p, usedList ks t) ∧
        ElimInv N ks d t p := by
  intro t ht
  induction t, ht using Nat.le_induction with
  | base =>
    intro _
    exact ⟨elimStep N p0 0 0,
      (elim_base N ks hN d p0 hp0z hp0succ hp0last hp0big).1,
      (elim_base N ks hN d p0 hp0z hp0succ hp0last hp0big).2⟩
  | succ n hn ih =>
    intro hlen
    obtain ⟨u, rfl⟩ : ∃ u, n = u + 1 := ⟨n - 1, by omega⟩
    obtain ⟨p, hrun, hInv⟩ := ih (by omega)
    obtain ⟨hpick, hInv2⟩ := elim_step_inv N ks hnd hksN d u (by omega) p hInv
    refine ⟨elimStep N p (eRow ks u) (u + 1), ?_, hInv2⟩
    rw [List.range_succ, elimLoop_append, hrun, Option.some_bind]
    simp only [elimLoop, hpick]
    rw [usedList_succ ks (u + 1) (by omega), Nat.add_sub_cancel]

/-! ### Extraction of the DOF phases and the final correction -/

theorem enumFrom_eq_range_map (l : List ℕ) : ∀ s : ℕ,
    l.enumFrom s = (List.range l.length).map (fun j => (s + j, l.getD j 0)) := by
  induction l with
  | nil => intro s; rfl
  | cons a tl ih =>
    intro s
    rw [List.enumFrom_cons, ih (s + 1), List.length_cons, List.range_succ_eq_map,
      List.map_cons, List.map_map]
    congr 1
    refine List.map_congr_left fun j hj => ?_
    simp only [Function.comp_apply, List.getD_cons_succ]
    congr 1
    omega

theorem applyPhases_formula (N : ℕ) (p : ℕ → ℕ → ℝ) (nq : ℕ) (ks : List ℕ) (m1 : Mat)
    (row c : ℕ) :
    applyPhases N p (nq :: ks) m1 row c =
      m1 row c *
        ((if row &&& (1 <<< nq) ≠ 0 then
            Complex.exp ((p (extractRow N p 0) (ks.length + 1) : ℝ) * Complex.I)
          else 1) *
         ((List.range ks.length).map (fun j =>
            if row &&& (1 <<< ksIdx ks j) ≠ 0 then
              Complex.exp ((p (extractRow N p (j + 1)) (ks.length + 1) : ℝ) * Complex.I)
            else 1)).prod) := by
  unfold applyPhases
  have henum : (nq :: ks).enum =
      (0, nq) :: (List.range ks.length).map (fun j => (j + 1, ksIdx ks j)) := by
    show List.enumFrom 0 (nq :: ks) = _
    rw [List.enumFrom_cons, enumFrom_eq_range_map ks 1]
    congr 1
    apply List.map_congr_left
    intro j hj
    congr 1
    omega
  rw [henum, List.map_cons, List.prod_cons, List.map_map]
  rfl

theorem extract_zero_of_inv (N : ℕ) (ks : List ℕ) (d : ℕ → ℝ) (p : ℕ → ℕ → ℝ)
    (hN : 0 < N) (hInv : ElimInv N ks d (ks.length + 1) p) :
    extractRow N p 0 = 0 ∧ p 0 (ks.length + 1) = tSum ks d (ks.length + 1) := by
  obtain ⟨hz, hpiv, hfree⟩ := hInv
  constructor
  · unfold extractRow
    apply pyMax_range_eq_of_unique _ N 0 hN
    intro y hyN hy0
    show p y 0 < p 0 0
    have h00 : p 0 0 = 1 := by
      rw [hz 0]
      unfold rowZeroVal
      rw [if_pos rfl]
    rw [h00]
    by_cases hpivy : ∃ i, i < ks.length ∧ y = eRow ks i
    · obtain ⟨i, hi, rfl⟩ := hpivy
      rw [hpiv i (by omega)]
      unfold pivotRowVal
      rw [if_neg (by omega : ¬0 = i + 1), if_neg (by omega : ¬0 = ks.length + 1)]
      norm_num
    · push_neg at hpivy
      rw [hfree y hyN hy0 (fun i hi => hpivy i (by omega))]
      unfold freeRowVal
      rw [if_pos (by omega : 0 < ks.length + 1)]
      norm_num
  · rw [hz (ks.length + 1)]
    unfold rowZeroVal
    rw [if_neg (by omega : ¬ks.length + 1 = 0),
      if_neg (by omega : ¬ks.length + 1 < ks.length + 1),
      if_neg (by omega : ¬ks.length + 1 ≤ ks.length), if_pos rfl]

theorem extract_succ_of_inv (N : ℕ) (ks : List ℕ) (hnd : ks.Nodup) (d : ℕ → ℝ)
    (p : ℕ → ℕ → ℝ) (j : ℕ) (hj : j < ks.length)
    (hksN : ∀ i, i < ks.length → eRow ks i < N)
    (hInv : ElimInv N ks d (ks.length + 1) p) :
    extractRow N p (j + 1) = eRow ks j ∧
    p (eRow ks j) (ks.length + 1) = d 0 - d (eRow ks j) := by
  obtain ⟨hz, hpiv, hfree⟩ := hInv
  constructor
  · unfold extractRow
    apply pyMax_range_eq_of_unique _ N (eRow ks j) (hksN j hj)
    intro y hyN hyne
    show p y (j + 1) < p (eRow ks j) (j + 1)
    have hpj : p (eRow ks j) (j + 1) = 1 := by
      rw [hpiv j (by omega)]
      exact pivotRowVal_self_col ks d j
    rw [hpj]
    by_cases hy0 : y = 0
    · subst hy0
      rw [hz (j + 1)]
      unfold rowZeroVal
      rw [if_neg (by omega : ¬j + 1 = 0), if_pos (by omega : j + 1 < ks.length + 1)]
      norm_num
    · by_cases hpivy : ∃ i, i < ks.length ∧ y = eRow ks i
      · obtain ⟨i, hi, rfl⟩ := hpivy
        have hij : i ≠ j := fun h => hyne (by rw [h])
        rw [hpiv i (by omega)]
        unfold pivotRowVal
        rw [if_neg (by omega : ¬j + 1 = i + 1), if_neg (by omega : ¬j + 1 = ks.length + 1)]
        norm_num
      · push_neg at hpivy
        rw [hfree y hyN hy0 (fun i hi => hpivy i (by omega))]
        unfold freeRowVal
        rw [if_pos (by omega : j + 1 < ks.length + 1)]
        norm_num
  · rw [hpiv j (by omega)]
    unfold pivotRowVal
    rw [if_neg (by omega : ¬ks.length + 1 = j + 1), if_pos rfl]

/-- The full behaviour of `_cancel_qubit_phase` on an Oracle-shaped DOF list
`nq :: ks` (global-phase sentinel first, then distinct in-range indices): the
call always succeeds, and multiplies each row of `m1` by the sentinel factor
(on rows with bit `nq` set, none of which exist below `2^nq`) and by the
extracted per-DOF corrections. -/
theorem cancel_oracle_run (nq : ℕ) (ks : List ℕ) (m1 m2 : Mat)
    (hnd : ks.Nodup) (hks : ∀ k ∈ ks, k < nq) :
    ∃ pf, cancelQubitPhase (2 ^ nq) m1 m2 (nq :: ks) =
        some (applyPhases (2 ^ nq) pf (nq :: ks) m1, m2) ∧
      ∀ row c, applyPhases (2 ^ nq) pf (nq :: ks) m1 row c =
        m1 row c *
          ((if row &&& (1 <<< nq) ≠ 0 then
              Complex.exp ((tSum ks (rowTarget (2 ^ nq) m1 m2) (ks.length + 1) : ℝ) *
                Complex.I)
            else 1) *
           corrProd ks (rowTarget (2 ^ nq) m1 m2) row) := by
  have hN : 0 < 2 ^ nq := pow_pos (by norm_num) nq
  have hksN : ∀ i, i < ks.length → eRow ks i < 2 ^ nq := fun i hi => eRow_lt ks nq hks i hi
  obtain ⟨p, hrun, hInv⟩ := elim_invariant (2 ^ nq) ks hnd hksN hN
    (rowTarget (2 ^ nq) m1 m2) (probInit (2 ^ nq) m1 m2 (nq :: ks))
    (probInit_zero_col nq ks m1 m2)
    (fun i r hi => probInit_succ_col nq ks m1 m2 i r hi)
    (probInit_last_col nq ks m1 m2)
    (fun r c hc => probInit_big_col nq ks m1 m2 r c hc)
    (ks.length + 1) (by omega) (by omega)
  refine ⟨p, ?_, ?_⟩
  · unfold cancelQubitPhase
    rw [show List.range (nq :: ks).length = List.range (ks.length + 1) from rfl, hrun]
  · intro row c
    obtain ⟨hx0, ht0⟩ :=
      extract_zero_of_inv (2 ^ nq) ks (rowTarget (2 ^ nq) m1 m2) p hN hInv
    rw [applyPhases_formula, hx0, ht0]
    have hmap : (List.range ks.length).map (fun j =>
        if row &&& 1 <<< ksIdx ks j ≠ 0 then
          Complex.exp ((p (extractRow (2 ^ nq) p (j + 1)) (ks.length + 1) : ℝ) * Complex.I)
        else 1) =
      (List.range ks.length).map (fun j =>
        if row &&& 1 <<< ksIdx ks j ≠ 0 then
          Complex.exp ((rowTarget (2 ^ nq) m1 m2 0 - rowTarget (2 ^ nq) m1 m2 (eRow ks j)) *
            Complex.I)
        else 1) := by
      refine List.map_congr_left fun j hj => ?_
      have hjl : j < ks.length := List.mem_range.mp hj
      obtain ⟨hxj, htj⟩ := extract_succ_of_inv (2 ^ nq) ks hnd (rowTarget (2 ^ nq) m1 m2)
        p j hjl hksN hInv
      rw [hxj, htj]
      by_cases hb : row &&& 1 <<< ksIdx ks j ≠ 0
      · rw [if_pos hb, if_pos hb]
        push_cast
        ring_nf
      · rw [if_neg hb, if_neg hb]
    rw [hmap]
    rfl

/-! ### Phase algebra -/

theorem exp_arg_mul_I (z : ℂ) (hz : z ≠ 0) :
    Complex.exp ((z.arg : ℝ) * Complex.I) = z / (Complex.abs z : ℂ) := by
  have h := Complex.abs_mul_exp_arg_mul_I z
  have habs : (Complex.abs z : ℂ) ≠ 0 := by
    simpa using Complex.abs.ne_zero hz
  rw [eq_div_iff habs, mul_comm]
  exact h

theorem exp_arg_of_unit (g : ℂ) (hg : Complex.abs g = 1) :
    Complex.exp ((g.arg : ℝ) * Complex.I) = g := by
  have h := Complex.abs_mul_exp_arg_mul_I g
  rw [hg] at h
  simpa using h

theorem exp_neg_arg_mul (g : ℂ) (hg : Complex.abs g = 1) :
    Complex.exp ((-g.arg : ℝ) * Complex.I) * g = 1 := by
  have hgne : g ≠ 0 := by
    intro h
    rw [h] at hg
    simp at hg
  rw [Complex.ofReal_neg, neg_mul, Complex.exp_neg, exp_arg_of_unit g hg]
  exact inv_mul_cancel₀ hgne

theorem exp_arg_sub_arg (u z : ℂ) (hu : Complex.abs u = 1) (hz : z ≠ 0) :
    Complex.exp (((u * z).arg - z.arg : ℝ) * Complex.I) = u := by
  have hune : u ≠ 0 := by
    intro h
    rw [h] at hu
    simp at hu
  have huz : u * z ≠ 0 := mul_ne_zero hune hz
  have habs : (Complex.abs z : ℂ) ≠ 0 := by
    simpa using Complex.abs.ne_zero hz
  rw [Complex.ofReal_sub, sub_mul, Complex.exp_sub, exp_arg_mul_I _ huz, exp_arg_mul_I _ hz]
  rw [map_mul, hu, one_mul]
  field_simp

theorem dom_entries_ne_zero (N : ℕ) (m1 m2 : Mat) (r : ℕ) (hN : 0 < N)
    (c : ℕ) (hc : c < N) (h1 : m1 r c ≠ 0) (h2 : m2 r c ≠ 0) :
    m1 r (domCol N m1 m2 r) ≠ 0 ∧ m2 r (domCol N m1 m2 r) ≠ 0 := by
  have hkey : rowKey m1 m2 r c ≤ rowKey m1 m2 r (domCol N m1 m2 r) :=
    key_le_pyMax_range (rowKey m1 m2 r) N c hc
  have hpos : 0 < rowKey m1 m2 r c := by
    unfold rowKey
    apply lt_min
    · exact Complex.abs.pos h1
    · exact Complex.abs.pos h2
  have hpos2 : 0 < rowKey m1 m2 r (domCol N m1 m2 r) := lt_of_lt_of_le hpos hkey
  unfold rowKey at hpos2
  rw [lt_min_iff] at hpos2
  constructor
  · intro h0
    rw [h0] at hpos2
    simp at hpos2
  · intro h0
    rw [h0] at hpos2
    simp at hpos2

theorem list_prod_ite_eq (m j : ℕ) (hj : j < m) (x : ℂ) :
    ((List.range m).map (fun i => if i = j then x else 1)).prod = x := by
  induction m with
  | zero => omega
  | succ n ih =>
    rw [List.range_succ, List.map_append, List.prod_append]
    by_cases hjn : j = n
    · subst hjn
      have h1 : ((List.range j).map (fun i => if i = j then x else 1)).prod = 1 := by
        apply List.prod_eq_one
        intro y hy
        obtain ⟨i, hi, rfl⟩ := List.mem_map.mp hy
        rw [if_neg (by have := List.mem_range.mp hi; omega)]
      rw [h1, one_mul]
      simp
    · have hjn2 : j < n := by omega
      rw [ih hjn2]
      simp [show ¬n = j from fun h => hjn h.symm]

theorem list_prod_map_mul (l : List ℕ) (f h : ℕ → ℂ) :
    (l.map f).prod * (l.map h).prod = (l.map (fun x => f x * h x)).prod := by
  induction l with
  | nil => simp
  | cons a tl ih =>
    simp only [List.map_cons, List.prod_cons]
    rw [← ih]
    ring

theorem phaseProd_zero_row (ks : List ℕ) (ph : ℕ → ℂ) : phaseProd ks ph 0 = 1 := by
  unfold phaseProd
  apply List.prod_eq_one
  intro x hx
  obtain ⟨i, hi, rfl⟩ := List.mem_map.mp hx
  rw [Nat.zero_testBit, if_neg Bool.false_ne_true]

theorem phaseProd_eRow (ks : List ℕ) (hnd : ks.Nodup) (ph : ℕ → ℂ) (j : ℕ)
    (hj : j < ks.length) : phaseProd ks ph (eRow ks j) = ph (ksIdx ks j) := by
  unfold phaseProd
  have hmap : (List.range ks.length).map
      (fun i => if Nat.testBit (eRow ks j) (ksIdx ks i) then ph (ksIdx ks i) else 1) =
      (List.range ks.length).map (fun i => if i = j then ph (ksIdx ks j) else 1) := by
    refine List.map_congr_left fun i hi => ?_
    have hil : i < ks.length := List.mem_range.mp hi
    by_cases hij : i = j
    · subst hij
      rw [if_pos (testBit_eRow_self ks i), if_pos rfl]
    · have hbit : Nat.testBit (eRow ks j) (ksIdx ks i) = false :=
        testBit_eRow_ne ks hnd j i hj hil (fun h => hij h.symm)
      rw [if_neg (by rw [hbit]; exact Bool.false_ne_true), if_neg hij]
  rw [hmap, list_prod_ite_eq ks.length j hj]

theorem exp_rowTarget (N : ℕ) (m1 m2 : Mat) (r : ℕ) (hN : 0 < N) (u : ℂ)
    (hu : Complex.abs u = 1)
    (hc : ∃ c, c < N ∧ m2 r c ≠ 0)
    (hrelr : ∀ c, c < N → m1 r c = u * m2 r c) :
    Complex.exp ((rowTarget N m1 m2 r : ℝ) * Complex.I) = u := by
  obtain ⟨c0, hc0, hm2⟩ := hc
  have hune : u ≠ 0 := by
    intro h
    rw [h] at hu
    simp at hu
  have hm1 : m1 r c0 ≠ 0 := by
    rw [hrelr c0 hc0]
    exact mul_ne_zero hune hm2
  have hdom := dom_entries_ne_zero N m1 m2 r hN c0 hc0 hm1 hm2
  unfold rowTarget
  rw [hrelr (domCol N m1 m2 r) (pyMax_range_lt _ N hN)]
  exact exp_arg_sub_arg u (m2 r (domCol N m1 m2 r)) hu hdom.2

/-! ### C2: independent measurement phases are cancelled -/

theorem phase_corr_cancel (nq : ℕ) (ks : List ℕ) (m1 m2 : Mat) (g : ℂ) (ph : ℕ → ℂ)
    (hnd : ks.Nodup) (hks : ∀ k ∈ ks, k < nq)
    (hg : Complex.abs g = 1) (hph : ∀ k, Complex.abs (ph k) = 1)
    (hrows : ∀ r, r < 2 ^ nq → ∃ c, c < 2 ^ nq ∧ m2 r c ≠ 0)
    (hrel : ∀ r, r < 2 ^ nq → ∀ c, c < 2 ^ nq → m1 r c = g * phaseProd ks ph r * m2 r c)
    (row : ℕ) :
    phaseProd ks ph row * corrProd ks (rowTarget (2 ^ nq) m1 m2) row = 1 := by
  have hN : 0 < 2 ^ nq := pow_pos (by norm_num) nq
  have hgne : g ≠ 0 := by
    intro h
    rw [h] at hg
    simp at hg
  have hd0 : Complex.exp ((rowTarget (2 ^ nq) m1 m2 0 : ℝ) * Complex.I) = g := by
    apply exp_rowTarget (2 ^ nq) m1 m2 0 hN g hg (hrows 0 hN)
    intro c hcl
    rw [hrel 0 hN c hcl, phaseProd_zero_row]
    ring
  unfold phaseProd corrProd
  rw [list_prod_map_mul]
  apply List.prod_eq_one
  intro x hx
  obtain ⟨j, hj, rfl⟩ := List.mem_map.mp hx
  have hjl : j < ks.length := List.mem_range.mp hj
  by_cases hb : Nat.testBit row (ksIdx ks j)
  · rw [if_pos hb, if_pos (by rw [and_shift_ne_zero_iff]; exact hb)]
    have hde : Complex.exp ((rowTarget (2 ^ nq) m1 m2 (eRow ks j) : ℝ) * Complex.I) =
        g * ph (ksIdx ks j) := by
      apply exp_rowTarget (2 ^ nq) m1 m2 (eRow ks j) hN (g * ph (ksIdx ks j))
        (by rw [map_mul, hg, hph, one_mul])
        (hrows (eRow ks j) (eRow_lt ks nq hks j hjl))
      intro c hcl
      rw [hrel (eRow ks j) (eRow_lt ks nq hks j hjl) c hcl,
        phaseProd_eRow ks hnd ph j hjl]
    have hpne : ph (ksIdx ks j) ≠ 0 := by
      intro h
      have := hph (ksIdx ks j)
      rw [h] at this
      simp at this
    rw [sub_mul, Complex.exp_sub, hd0, hde]
    field_simp
    ring
  · rw [if_neg hb,
      if_neg (fun hcon => hb ((and_shift_ne_zero_iff row (ksIdx ks j)).mp hcon)), one_mul]

/-- C2: for a matrix `m2` whose rows are non-vanishing (e.g. a unitary) over
`nq` qubits, and `m1` obtained from `m2` by multiplying each row by one
independent unit phase per measured-qubit DOF whose bit it carries, together
with one global unit phase, `_cancel_qubit_phase` with the Oracle's DOF list
succeeds, and the comparison up to a single global phase within any
non-negative absolute tolerance accepts. -/
theorem C2_relabeled_phases_accepted (nq : ℕ) (ks : List ℕ) (m1 m2 : Mat)
    (g : ℂ) (ph : ℕ → ℂ) (atol : ℝ)
    (hnd : ks.Nodup) (hks : ∀ k ∈ ks, k < nq)
    (hg : Complex.abs g = 1) (hph : ∀ k, Complex.abs (ph k) = 1)
    (hrows : ∀ r, r < 2 ^ nq → ∃ c, c < 2 ^ nq ∧ m2 r c ≠ 0)
    (hrel : ∀ r, r < 2 ^ nq → ∀ c, c < 2 ^ nq → m1 r c = g * phaseProd ks ph r * m2 r c)
    (hatol : 0 ≤ atol) :
    ∃ m1', cancelQubitPhase (2 ^ nq) m1 m2 (nq :: ks) = some (m1', m2) ∧
      allcloseUpToGlobalPhase (2 ^ nq) m1' m2 atol := by
  obtain ⟨pf, hcan, hform⟩ := cancel_oracle_run nq ks m1 m2 hnd hks
  refine ⟨_, hcan, ⟨-g.arg, ?_⟩⟩
  intro r hr c hc
  have hglob : ¬r &&& (1 <<< nq) ≠ 0 := by
    rw [and_shift_ne_zero_iff, Nat.testBit_eq_false_of_lt hr]
    exact Bool.false_ne_true
  have hval : applyPhases (2 ^ nq) pf (nq :: ks) m1 r c = g * m2 r c := by
    rw [hform r c, if_neg hglob, one_mul, hrel r hr c hc]
    have hpc := phase_corr_cancel nq ks m1 m2 g ph hnd hks hg hph hrows hrel r
    calc g * phaseProd ks ph r * m2 r c * corrProd ks (rowTarget (2 ^ nq) m1 m2) r =
        g * m2 r c * (phaseProd ks ph r * corrProd ks (rowTarget (2 ^ nq) m1 m2) r) := by
          ring
      _ = g * m2 r c := by rw [hpc, mul_one]
  rw [hval]
  have hexp := exp_neg_arg_mul g hg
  calc Complex.abs (Complex.exp ((-g.arg : ℝ) * Complex.I) * (g * m2 r c) - m2 r c) =
      Complex.abs ((Complex.exp ((-g.arg : ℝ) * Complex.I) * g - 1) * m2 r c) := by
        congr 1
        ring
    _ = 0 := by rw [hexp]; simp
    _ ≤ atol := hatol

/-- Witness for C2 at a concrete input: zero qubits (a 1×1 matrix), no
measured DOFs, trivial phases, tolerance `0`. -/
theorem C2_relabeled_phases_accepted_witness :
    (([] : List ℕ).Nodup ∧ Complex.abs (1 : ℂ) = 1 ∧
      (∀ r, r < 2 ^ 0 → ∃ c, c < 2 ^ 0 ∧ oneMat r c ≠ 0) ∧
      (∀ r, r < 2 ^ 0 → ∀ c, c < 2 ^ 0 →
        oneMat r c = 1 * phaseProd [] (fun _ => 1) r * oneMat r c) ∧ (0 : ℝ) ≤ 0) ∧
    (∃ m1', cancelQubitPhase (2 ^ 0) oneMat oneMat (0 :: []) = some (m1', oneMat) ∧
      allcloseUpToGlobalPhase (2 ^ 0) m1' oneMat 0) :=
  ⟨⟨List.nodup_nil, by simp,
    fun r _ => ⟨0, by norm_num, one_ne_zero⟩,
    fun r hr c _ => by
      interval_cases r
      rw [phaseProd_zero_row]
      ring,
    le_refl 0⟩,
   C2_relabeled_phases_accepted 0 [] oneMat oneMat 1 (fun _ => 1) 0
     List.nodup_nil (fun k hk => absurd hk (List.not_mem_nil k))
     (by simp) (fun _ => by simp)
     (fun r _ => ⟨0, by norm_num, one_ne_zero⟩)
     (fun r hr c _ => by
       interval_cases r
       rw [phaseProd_zero_row]
       ring)
     (le_refl 0)⟩

/-! ### C4 (amended): idempotence on Oracle-shaped DOF lists -/

theorem ofReal_sub_eq (a b : ℝ) : ((a : ℂ) - (b : ℂ)) = ((a - b : ℝ) : ℂ) := by
  push_cast
  ring

theorem corrProd_zero_row (ks : List ℕ) (d : ℕ → ℝ) : corrProd ks d 0 = 1 := by
  unfold corrProd
  apply List.prod_eq_one
  intro x hx
  obtain ⟨i, hi, rfl⟩ := List.mem_map.mp hx
  rw [if_neg]
  intro hcon
  rw [Nat.zero_and] at hcon
  exact hcon rfl

theorem corrProd_eRow (ks : List ℕ) (hnd : ks.Nodup) (d : ℕ → ℝ) (j : ℕ)
    (hj : j < ks.length) :
    corrProd ks d (eRow ks j) = Complex.exp ((d 0 - d (eRow ks j)) * Complex.I) := by
  unfold corrProd
  have hmap : (List.range ks.length).map (fun i =>
      if eRow ks j &&& (1 <<< ksIdx ks i) ≠ 0 then
        Complex.exp ((d 0 - d (eRow ks i)) * Complex.I)
      else 1) =
      (List.range ks.length).map (fun i =>
        if i = j then Complex.exp ((d 0 - d (eRow ks j)) * Complex.I) else 1) := by
    refine List.map_congr_left fun i hi => ?_
    have hil : i < ks.length := List.mem_range.mp hi
    by_cases hij : i = j
    · subst hij
      rw [if_pos (by rw [and_shift_ne_zero_iff]; exact testBit_eRow_self ks i), if_pos rfl]
    · have hbit : Nat.testBit (eRow ks j) (ksIdx ks i) = false :=
        testBit_eRow_ne ks hnd j i hj hil (fun h => hij h.symm)
      rw [if_neg (fun hcon => by
          rw [and_shift_ne_zero_iff, hbit] at hcon
          exact Bool.false_ne_true hcon), if_neg hij]
  rw [hmap, list_prod_ite_eq ks.length j hj]

theorem corrProd_abs_one (ks : List ℕ) (d : ℕ → ℝ) (row : ℕ) :
    Complex.abs (corrProd ks d row) = 1 := by
  unfold corrProd
  rw [map_list_prod]
  apply List.prod_eq_one
  intro x hx
  rw [List.map_map] at hx
  obtain ⟨i, hi, rfl⟩ := List.mem_map.mp hx
  by_cases hb : row &&& (1 <<< ksIdx ks i) ≠ 0
  · simp only [Function.comp_apply, if_pos hb]
    rw [ofReal_sub_eq]
    exact Complex.abs_exp_ofReal_mul_I _
  · simp only [Function.comp_apply, if_neg hb]
    exact map_one Complex.abs

theorem exp_arg_mul_unit (Φ z : ℂ) (hΦ : Complex.abs Φ = 1) (hz : z ≠ 0) :
    Complex.exp (((Φ * z).arg : ℝ) * Complex.I) =
      Φ * Complex.exp ((z.arg : ℝ) * Complex.I) := by
  have hΦne : Φ ≠ 0 := by
    intro h
    rw [h] at hΦ
    simp at hΦ
  rw [exp_arg_mul_I _ (mul_ne_zero hΦne hz), exp_arg_mul_I _ hz, map_mul, hΦ, one_mul,
    mul_div_assoc]

theorem rowTarget_congr_row (N : ℕ) (m1 m1' m2 : Mat) (r : ℕ)
    (h : ∀ c, m1' r c = m1 r c) : rowTarget N m1' m2 r = rowTarget N m1 m2 r := by
  have hdc : domCol N m1' m2 r = domCol N m1 m2 r := by
    unfold domCol
    congr 1
    funext c
    unfold rowKey
    rw [h c]
  unfold rowTarget
  rw [hdc, h]

theorem exp_rowTarget_phased (N : ℕ) (m1 m1' m2 : Mat) (r : ℕ) (Φ : ℂ)
    (hΦ : Complex.abs Φ = 1) (hrel : ∀ c, m1' r c = m1 r c * Φ)
    (hne : m1 r (domCol N m1 m2 r) ≠ 0) :
    Complex.exp ((rowTarget N m1' m2 r : ℝ) * Complex.I) =
      Φ * Complex.exp ((rowTarget N m1 m2 r : ℝ) * Complex.I) := by
  have hdc : domCol N m1' m2 r = domCol N m1 m2 r := by
    unfold domCol
    congr 1
    funext c
    unfold rowKey
    rw [hrel c, map_mul, hΦ, mul_one]
  unfold rowTarget
  rw [hdc, hrel (domCol N m1 m2 r), mul_comm (m1 r (domCol N m1 m2 r)) Φ]
  rw [Complex.ofReal_sub, Complex.ofReal_sub, sub_mul, sub_mul, Complex.exp_sub,
    Complex.exp_sub, exp_arg_mul_unit Φ _ hΦ hne]
  ring

/-- C4 (amended): `_cancel_qubit_phase` is idempotent when the DOF list has
the Oracle's shape (the global-phase sentinel followed by distinct in-range
qubit indices) and every row has a column where both matrices are non-zero
(e.g. the unitary pairs compared by the Oracle after phase relabeling):
running it a second time returns exactly the matrix of the first run. -/
theorem C4_idempotent_on_oracle_dofs (nq : ℕ) (ks : List ℕ) (m1 m2 : Mat)
    (hnd : ks.Nodup) (hks : ∀ k ∈ ks, k < nq)
    (hcommon : ∀ r, r < 2 ^ nq → ∃ c, c < 2 ^ nq ∧ m1 r c ≠ 0 ∧ m2 r c ≠ 0) :
    ∃ m1' m1'', cancelQubitPhase (2 ^ nq) m1 m2 (nq :: ks) = some (m1', m2) ∧
      cancelQubitPhase (2 ^ nq) m1' m2 (nq :: ks) = some (m1'', m2) ∧
      ∀ r, r < 2 ^ nq → ∀ c, m1'' r c = m1' r c := by
  have hN : 0 < 2 ^ nq := pow_pos (by norm_num) nq
  obtain ⟨pf, hcan1, hform1⟩ := cancel_oracle_run nq ks m1 m2 hnd hks
  obtain ⟨pf2, hcan2, hform2⟩ :=
    cancel_oracle_run nq ks (applyPhases (2 ^ nq) pf (nq :: ks) m1) m2 hnd hks
  refine ⟨_, _, hcan1, hcan2, ?_⟩
  intro r hr c
  have hglobr : ¬r &&& (1 <<< nq) ≠ 0 := by
    rw [and_shift_ne_zero_iff, Nat.testBit_eq_false_of_lt hr]
    exact Bool.false_ne_true
  rw [hform2 r c, if_neg hglobr, one_mul]
  have hrow0 : ∀ c', applyPhases (2 ^ nq) pf (nq :: ks) m1 0 c' = m1 0 c' := by
    intro c'
    have hglob0 : ¬(0 : ℕ) &&& (1 <<< nq) ≠ 0 := by
      intro hcon
      rw [Nat.zero_and] at hcon
      exact hcon rfl
    rw [hform1 0 c', if_neg hglob0, one_mul, corrProd_zero_row, mul_one]
  have hd0 : rowTarget (2 ^ nq) (applyPhases (2 ^ nq) pf (nq :: ks) m1) m2 0 =
      rowTarget (2 ^ nq) m1 m2 0 :=
    rowTarget_congr_row (2 ^ nq) m1 (applyPhases (2 ^ nq) pf (nq :: ks) m1) m2 0 hrow0
  suffices hone :
      corrProd ks (rowTarget (2 ^ nq) (applyPhases (2 ^ nq) pf (nq :: ks) m1) m2) r = 1 by
    rw [hone, mul_one]
  unfold corrProd
  apply List.prod_eq_one
  intro x hx
  obtain ⟨j, hj, rfl⟩ := List.mem_map.mp hx
  have hjl : j < ks.length := List.mem_range.mp hj
  by_cases hb : r &&& (1 <<< ksIdx ks j) ≠ 0
  · rw [if_pos hb]
    have heN : eRow ks j < 2 ^ nq := eRow_lt ks nq hks j hjl
    have hglobe : ¬eRow ks j &&& (1 <<< nq) ≠ 0 := by
      rw [and_shift_ne_zero_iff, Nat.testBit_eq_false_of_lt heN]
      exact Bool.false_ne_true
    have hrele : ∀ c', applyPhases (2 ^ nq) pf (nq :: ks) m1 (eRow ks j) c' =
        m1 (eRow ks j) c' *
          Complex.exp ((rowTarget (2 ^ nq) m1 m2 0 -
            rowTarget (2 ^ nq) m1 m2 (eRow ks j)) * Complex.I) := by
      intro c'
      rw [hform1 (eRow ks j) c', if_neg hglobe, one_mul,
        corrProd_eRow ks hnd (rowTarget (2 ^ nq) m1 m2) j hjl]
    obtain ⟨ce, hce, hm1e, hm2e⟩ := hcommon (eRow ks j) heN
    have hnedom := dom_entries_ne_zero (2 ^ nq) m1 m2 (eRow ks j) hN ce hce hm1e hm2e
    have hde := exp_rowTarget_phased (2 ^ nq) m1 (applyPhases (2 ^ nq) pf (nq :: ks) m1)
      m2 (eRow ks j)
      (Complex.exp ((rowTarget (2 ^ nq) m1 m2 0 -
        rowTarget (2 ^ nq) m1 m2 (eRow ks j)) * Complex.I))
      (by rw [ofReal_sub_eq]; exact Complex.abs_exp_ofReal_mul_I _)
      hrele hnedom.1
    rw [sub_mul, Complex.exp_sub, hd0, hde]
    rw [ofReal_sub_eq, Complex.ofReal_sub, sub_mul, Complex.exp_sub]
    have hexpne := Complex.exp_ne_zero
      ((rowTarget (2 ^ nq) m1 m2 (eRow ks j) : ℝ) * Complex.I)
    have hexpne0 := Complex.exp_ne_zero ((rowTarget (2 ^ nq) m1 m2 0 : ℝ) * Complex.I)
    field_simp
  · rw [if_neg hb]

/-! ### A concrete single-DOF run: the counterexample to C4 as stated -/

theorem pyMax_two (key : ℕ → ℝ) : pyMax key (List.range 2) = if key 0 < key 1 then 1 else 0 := by
  rw [show List.range 2 = [0, 1] from by decide]
  rfl

theorem probInit_single_00 (m1 m2 : Mat) : probInit 2 m1 m2 [0] 0 0 = 1 := by
  unfold probInit
  rw [if_pos (by decide), if_neg (by decide)]

theorem probInit_single_10 (m1 m2 : Mat) : probInit 2 m1 m2 [0] 1 0 = 0 := by
  unfold probInit
  rw [if_pos (by decide), if_pos (by decide)]

theorem probInit_single_01 (m1 m2 : Mat) :
    probInit 2 m1 m2 [0] 0 ([0] : List ℕ).length = rowTarget 2 m1 m2 0 := by
  unfold probInit
  rw [if_neg (lt_irrefl _), if_pos rfl]

theorem cancel_single_dof_run (m1 m2 : Mat) :
    cancelQubitPhase 2 m1 m2 [0] =
      some (applyPhases 2 (elimStep 2 (probInit 2 m1 m2 [0]) 0 0) [0] m1, m2) := by
  have hpick : pick 2 (probInit 2 m1 m2 [0]) [] 0 = some 0 := by
    apply pick_eq_some_of 2 _ [] 0 0 (by norm_num) (List.not_mem_nil 0)
    · rw [probInit_single_00]
      norm_num
    · intro y hy
      exact absurd hy (Nat.not_lt_zero y)
  unfold cancelQubitPhase
  rw [show List.range ([0] : List ℕ).length = [0] from by decide]
  simp only [elimLoop, hpick]

theorem elim_single_00 (m1 m2 : Mat) :
    elimStep 2 (probInit 2 m1 m2 [0]) 0 0 0 0 = 1 := by
  unfold elimStep
  rw [if_pos rfl, probInit_single_00]
  norm_num

theorem elim_single_10 (m1 m2 : Mat) :
    elimStep 2 (probInit 2 m1 m2 [0]) 0 0 1 0 = 0 := by
  unfold elimStep
  rw [if_neg (by decide), if_pos (by decide), probInit_single_10, probInit_single_00]
  norm_num

theorem elim_single_01 (m1 m2 : Mat) :
    elimStep 2 (probInit 2 m1 m2 [0]) 0 0 0 ([0] : List ℕ).length =
      rowTarget 2 m1 m2 0 := by
  unfold elimStep
  rw [if_pos rfl, probInit_single_00, probInit_single_01, div_one]

theorem extract_single (m1 m2 : Mat) :
    extractRow 2 (elimStep 2 (probInit 2 m1 m2 [0]) 0 0) 0 = 0 := by
  unfold extractRow
  rw [pyMax_two, elim_single_00, elim_single_10, if_neg (by norm_num)]

theorem apply_single_11 (m1 m2 : Mat) :
    applyPhases 2 (elimStep 2 (probInit 2 m1 m2 [0]) 0 0) [0] m1 1 1 =
      m1 1 1 * Complex.exp ((rowTarget 2 m1 m2 0 : ℝ) * Complex.I) := by
  unfold applyPhases
  rw [show ([0] : List ℕ).enum = [(0, 0)] from rfl]
  rw [List.map_cons, List.map_nil, List.prod_cons, List.prod_nil, mul_one]
  rw [if_pos (by decide), extract_single, elim_single_01]

theorem apply_single_row0 (m1 m2 : Mat) (c : ℕ) :
    applyPhases 2 (elimStep 2 (probInit 2 m1 m2 [0]) 0 0) [0] m1 0 c = m1 0 c := by
  unfold applyPhases
  rw [show ([0] : List ℕ).enum = [(0, 0)] from rfl]
  rw [List.map_cons, List.map_nil, List.prod_cons, List.prod_nil, mul_one]
  rw [if_neg (by decide), mul_one]

theorem exp_pi_div_two_I : Complex.exp ((Real.pi / 2 : ℝ) * Complex.I) = Complex.I := by
  rw [Complex.exp_mul_I]
  rw [show ((Real.pi / 2 : ℝ) : ℂ) = (Real.pi : ℂ) / 2 from by push_cast; ring]
  rw [Complex.cos_pi_div_two, Complex.sin_pi_div_two]
  ring

theorem c4_rowTarget_first : rowTarget 2 c4Mat idMat 0 = Real.pi / 2 := by
  have hdom : domCol 2 c4Mat idMat 0 = 0 := by
    unfold domCol
    rw [pyMax_two]
    have hk0 : rowKey c4Mat idMat 0 0 = 1 := by
      unfold rowKey
      rw [show c4Mat 0 0 = Complex.I from by simp [c4Mat],
        show idMat 0 0 = 1 from by simp [idMat]]
      simp [Complex.abs_I]
    have hk1 : rowKey c4Mat idMat 0 1 = 0 := by
      unfold rowKey
      rw [show c4Mat 0 1 = 0 from by simp [c4Mat]]
      simp
    rw [hk0, hk1, if_neg (by norm_num)]
  unfold rowTarget
  rw [hdom, show c4Mat 0 0 = Complex.I from by simp [c4Mat],
    show idMat 0 0 = 1 from by simp [idMat], Complex.arg_I, Complex.arg_one]
  ring

/-- Counterexample to C4 as stated: with `m1 = diag(i, 1)`, `m2` the 2×2
identity and the DOF list `[0]` (no global-phase sentinel), both runs of
`_cancel_qubit_phase` succeed, but the second run multiplies row `1` by `i`
again: entry `(1,1)` is `i` after the first run and `-1` after the second. -/
theorem C4_idempotence_counterexample :
    cancelQubitPhase 2 c4Mat idMat [0] =
      some (applyPhases 2 (elimStep 2 (probInit 2 c4Mat idMat [0]) 0 0) [0] c4Mat,
        idMat) ∧
    cancelQubitPhase 2
        (applyPhases 2 (elimStep 2 (probInit 2 c4Mat idMat [0]) 0 0) [0] c4Mat)
        idMat [0] =
      some (applyPhases 2
          (elimStep 2 (probInit 2
            (applyPhases 2 (elimStep 2 (probInit 2 c4Mat idMat [0]) 0 0) [0] c4Mat)
            idMat [0]) 0 0) [0]
          (applyPhases 2 (elimStep 2 (probInit 2 c4Mat idMat [0]) 0 0) [0] c4Mat),
        idMat) ∧
    applyPhases 2
        (elimStep 2 (probInit 2
          (applyPhases 2 (elimStep 2 (probInit 2 c4Mat idMat [0]) 0 0) [0] c4Mat)
          idMat [0]) 0 0) [0]
        (applyPhases 2 (elimStep 2 (probInit 2 c4Mat idMat [0]) 0 0) [0] c4Mat) 1 1 ≠
      applyPhases 2 (elimStep 2 (probInit 2 c4Mat idMat [0]) 0 0) [0] c4Mat 1 1 := by
  refine ⟨cancel_single_dof_run c4Mat idMat, cancel_single_dof_run _ idMat, ?_⟩
  have h1 : applyPhases 2 (elimStep 2 (probInit 2 c4Mat idMat [0]) 0 0) [0] c4Mat 1 1 =
      Complex.I := by
    rw [apply_single_11, c4_rowTarget_first, show c4Mat 1 1 = 1 from by simp [c4Mat],
      exp_pi_div_two_I, one_mul]
  have htar2 : rowTarget 2
      (applyPhases 2 (elimStep 2 (probInit 2 c4Mat idMat [0]) 0 0) [0] c4Mat) idMat 0 =
      Real.pi / 2 := by
    rw [rowTarget_congr_row 2 c4Mat _ idMat 0 (fun c' => apply_single_row0 c4Mat idMat c'),
      c4_rowTarget_first]
  rw [apply_single_11, htar2, h1, exp_pi_div_two_I, Complex.I_mul_I]
  intro h
  have hre := congrArg Complex.re h
  simp at hre

/-- Witness for the amended C4 at a concrete input: zero qubits, the
all-ones 1×1 matrices, Oracle DOF list `[0]`. -/
theorem C4_idempotent_on_oracle_dofs_witness :
    (([] : List ℕ).Nodup ∧
      (∀ r, r < 2 ^ 0 → ∃ c, c < 2 ^ 0 ∧ oneMat r c ≠ 0 ∧ oneMat r c ≠ 0)) ∧
    (∃ m1' m1'', cancelQubitPhase (2 ^ 0) oneMat oneMat (0 :: []) = some (m1', oneMat) ∧
      cancelQubitPhase (2 ^ 0) m1' oneMat (0 :: []) = some (m1'', oneMat) ∧
      ∀ r, r < 2 ^ 0 → ∀ c, m1'' r c = m1' r c) :=
  ⟨⟨List.nodup_nil, fun r _ => ⟨0, by norm_num, one_ne_zero, one_ne_zero⟩⟩,
   C4_idempotent_on_oracle_dofs 0 [] oneMat oneMat List.nodup_nil
     (fun k hk => absurd hk (List.not_mem_nil k))
     (fun r _ => ⟨0, by norm_num, one_ne_zero, one_ne_zero⟩)⟩

/-! ### C6: the incidence entries of the linear system -/

/-- C6: in the linear system built by `_cancel_qubit_phase`, for every DOF
`i` with qubit index `k = qubits[i]` and every row `r` of the `2^n` rows, the
incidence entry is `0` when bit `k` of `r` is set and `1` otherwise, i.e.
`prob[r, i] = 0` iff `r & (1 << k) ≠ 0`. -/
theorem C6_incidence_entries (N : ℕ) (m1 m2 : Mat) (qubits : List ℕ) (i r : ℕ)
    (hi : i < qubits.length) (hr : r < N) :
    (r &&& (1 <<< qubits.getD i 0) ≠ 0 → probInit N m1 m2 qubits r i = 0) ∧
    (r &&& (1 <<< qubits.getD i 0) = 0 → probInit N m1 m2 qubits r i = 1) ∧
    (probInit N m1 m2 qubits r i = 0 ↔ r &&& (1 <<< qubits.getD i 0) ≠ 0) := by
  unfold probInit
  rw [if_pos hi]
  by_cases hb : r &&& (1 <<< qubits.getD i 0) ≠ 0
  · rw [if_pos hb]
    exact ⟨fun _ => rfl, fun h => absurd h hb, ⟨fun _ => hb, fun _ => rfl⟩⟩
  · rw [if_neg hb]
    refine ⟨fun h => absurd h hb, fun _ => rfl, ?_⟩
    simp only [one_ne_zero, false_iff]
    exact hb

/-- Witness for C6 at a concrete input: `N = 4`, `qubits = [0, 1]`, DOF `i = 1`
(qubit index `1`), row `r = 2` (bit `1` set), zero matrices. -/
theorem C6_incidence_entries_witness :
    (1 < ([0, 1] : List ℕ).length ∧ 2 < 4) ∧
    ((2 &&& (1 <<< ([0, 1] : List ℕ).getD 1 0) ≠ 0 →
        probInit 4 (fun _ _ => 0) (fun _ _ => 0) [0, 1] 2 1 = 0) ∧
     (2 &&& (1 <<< ([0, 1] : List ℕ).getD 1 0) = 0 →
        probInit 4 (fun _ _ => 0) (fun _ _ => 0) [0, 1] 2 1 = 1) ∧
     (probInit 4 (fun _ _ => 0) (fun _ _ => 0) [0, 1] 2 1 = 0 ↔
        2 &&& (1 <<< ([0, 1] : List ℕ).getD 1 0) ≠ 0)) :=
  ⟨⟨by norm_num, by norm_num⟩,
   C6_incidence_entries 4 (fun _ _ => 0) (fun _ _ => 0) [0, 1] 1 2 (by norm_num) (by norm_num)⟩

/-! ### C7: the dominant row phase differences -/

/-- C7: for every row `r`, `_cancel_qubit_phase` sets that row's target (the
last column of the linear system) to `angle(m1[r,c]) - angle(m2[r,c])` where
`c` is a column maximising `min(|m1[r,c]|, |m2[r,c]|)` over all columns. -/
theorem C7_dominant_phase_difference (N : ℕ) (m1 m2 : Mat) (qubits : List ℕ) (r : ℕ)
    (hr : r < N) :
    ∃ c < N,
      (∀ c' < N, min (Complex.abs (m1 r c')) (Complex.abs (m2 r c')) ≤
          min (Complex.abs (m1 r c)) (Complex.abs (m2 r c))) ∧
      probInit N m1 m2 qubits r qubits.length = (m1 r c).arg - (m2 r c).arg := by
  have hN : 0 < N := Nat.lt_of_le_of_lt (Nat.zero_le r) hr
  refine ⟨domCol N m1 m2 r, pyMax_range_lt _ N hN, fun c' hc' => ?_, ?_⟩
  · exact key_le_pyMax_range (rowKey m1 m2 r) N c' hc'
  · unfold probInit
    rw [if_neg (lt_irrefl qubits.length), if_pos rfl]
    rfl

/-- Witness for C7 at a concrete input: `N = 2`, identity matrices, row `1`. -/
theorem C7_dominant_phase_difference_witness :
    (1 < 2) ∧
    (∃ c < 2,
      (∀ c' < 2,
        min (Complex.abs ((fun r c : ℕ => if r = c then (1:ℂ) else 0) 1 c'))
            (Complex.abs ((fun r c : ℕ => if r = c then (1:ℂ) else 0) 1 c')) ≤
        min (Complex.abs ((fun r c : ℕ => if r = c then (1:ℂ) else 0) 1 c))
            (Complex.abs ((fun r c : ℕ => if r = c then (1:ℂ) else 0) 1 c))) ∧
      probInit 2 (fun r c : ℕ => if r = c then (1:ℂ) else 0)
          (fun r c : ℕ => if r = c then (1:ℂ) else 0) [1] 1 ([1] : List ℕ).length =
        ((fun r c : ℕ => if r = c then (1:ℂ) else 0) 1 c).arg -
        ((fun r c : ℕ => if r = c then (1:ℂ) else 0) 1 c).arg) :=
  ⟨by norm_num,
   C7_dominant_phase_difference 2 (fun r c : ℕ => if r = c then (1:ℂ) else 0)
     (fun r c : ℕ => if r = c then (1:ℂ) else 0) [1] 1 (by norm_num)⟩

/-! ### C9: only the first matrix is mutated -/

/-- C9: `_cancel_qubit_phase` mutates only its first matrix argument: whenever
the call returns (rather than raising), every entry of `m2` is unchanged. -/
theorem C9_m2_unchanged (N : ℕ) (m1 m2 : Mat) (qubits : List ℕ) (res : Mat × Mat)
    (h : cancelQubitPhase N m1 m2 qubits = some res) : res.2 = m2 := by
  unfold cancelQubitPhase at h
  rcases helim : elimLoop N (probInit N m1 m2 qubits, []) (List.range qubits.length) with _ | s
  · rw [helim] at h; cases h
  · rw [helim] at h
    cases h
    rfl

/-! ### C10: row phasing preserves all absolute values -/

/-- C10: `_cancel_qubit_phase` preserves the absolute value of every entry of
`m1`: each row is only ever multiplied by unit-modulus scalars `exp(i*θ)`. -/
theorem C10_abs_preserved (N : ℕ) (m1 m2 : Mat) (qubits : List ℕ) (res : Mat × Mat)
    (h : cancelQubitPhase N m1 m2 qubits = some res) :
    ∀ r < N, ∀ c < N, Complex.abs (res.1 r c) = Complex.abs (m1 r c) := by
  intro r hr c hc
  unfold cancelQubitPhase at h
  rcases helim : elimLoop N (probInit N m1 m2 qubits, []) (List.range qubits.length) with _ | s
  · rw [helim] at h; cases h
  · rw [helim] at h
    cases h
    show Complex.abs (applyPhases N s.1 qubits m1 r c) = _
    unfold applyPhases
    rw [map_mul]
    have habs : Complex.abs ((qubits.enum.map (fun ik =>
        if r &&& (1 <<< ik.2) ≠ 0 then
          Complex.exp ((s.1 (extractRow N s.1 ik.1) qubits.length : ℝ) * Complex.I)
        else 1)).prod) = 1 := by
      rw [map_list_prod]
      apply List.prod_eq_one
      intro x hx
      rw [List.map_map] at hx
      obtain ⟨ik, hik, rfl⟩ := List.mem_map.mp hx
      by_cases hb : r &&& (1 <<< ik.2) ≠ 0
      · simp only [Function.comp_apply, if_pos hb]
        exact Complex.abs_exp_ofReal_mul_I _
      · simp only [Function.comp_apply, if_neg hb]
        exact map_one Complex.abs
    rw [habs, mul_one]

/-! ### A concrete successful run of the solver, for the witnesses -/

theorem probInit_oneMat_zero_zero : probInit 1 oneMat oneMat [0] 0 0 = 1 := by
  unfold probInit
  norm_num

theorem pick_oneMat_run : pick 1 (probInit 1 oneMat oneMat [0]) [] 0 = some 0 := by
  apply pick_eq_some_of 1 _ [] 0 0 (by norm_num) (List.not_mem_nil 0)
  · rw [probInit_oneMat_zero_zero]
    norm_num
  · intro y hy
    exact absurd hy (Nat.not_lt_zero y)

theorem cancel_oneMat_run :
    cancelQubitPhase 1 oneMat oneMat [0] =
      some (applyPhases 1 (elimStep 1 (probInit 1 oneMat oneMat [0]) 0 0) [0] oneMat,
        oneMat) := by
  unfold cancelQubitPhase
  have hr1 : List.range ([0] : List ℕ).length = [0] := by decide
  rw [hr1]
  simp only [elimLoop, pick_oneMat_run]

/-- Witness for C9 at a concrete input: dimension `1`, the all-ones matrices,
DOF list `[0]`; the run succeeds and the second returned matrix is `m2`. -/
theorem C9_m2_unchanged_witness :
    cancelQubitPhase 1 oneMat oneMat [0] =
      some (applyPhases 1 (elimStep 1 (probInit 1 oneMat oneMat [0]) 0 0) [0] oneMat,
        oneMat) ∧
    (applyPhases 1 (elimStep 1 (probInit 1 oneMat oneMat [0]) 0 0) [0] oneMat,
        oneMat).2 = oneMat :=
  ⟨cancel_oneMat_run, C9_m2_unchanged 1 oneMat oneMat [0] _ cancel_oneMat_run⟩

/-- Witness for C10 at a concrete input: dimension `1`, the all-ones matrices,
DOF list `[0]`. -/
theorem C10_abs_preserved_witness :
    cancelQubitPhase 1 oneMat oneMat [0] =
      some (applyPhases 1 (elimStep 1 (probInit 1 oneMat oneMat [0]) 0 0) [0] oneMat,
        oneMat) ∧
    (∀ r < 1, ∀ c < 1, Complex.abs
        ((applyPhases 1 (elimStep 1 (probInit 1 oneMat oneMat [0]) 0 0) [0] oneMat,
          oneMat).1 r c) = Complex.abs (oneMat r c)) :=
  ⟨cancel_oneMat_run, C10_abs_preserved 1 oneMat oneMat [0] _ cancel_oneMat_run⟩

/-! ### C5: mismatched measured-qubit sets fail fast -/

theorem canonicalize_measured_mismatch (c1 c2 : Circuit Q)
    (hm : c1.terminalMeasuredQubits ≠ c2.terminalMeasuredQubits) :
    canonicalizeUpToTerminalMeasurementPhase c1 c2 = .error .measurementMismatch ∨
    canonicalizeUpToTerminalMeasurementPhase c1 c2 = .error .nonTerminalActual ∨
    canonicalizeUpToTerminalMeasurementPhase c1 c2 = .error .nonTerminalReference := by
  unfold canonicalizeUpToTerminalMeasurementPhase
  cases h1 : c1.allMeasurementsTerminal
  · right; left
    simp [h1]
  · cases h2 : c2.allMeasurementsTerminal
    · right; right
      simp [h1, h2]
    · left
      simp [h1, h2, hm]

/-- C5: for every pair of circuits whose sets of terminally-measured qubits
differ, the equivalence check fails deterministically with an assertion-level
error raised before any matrix comparison; it never silently passes, and the
failure is not the final matrix-mismatch assertion. -/
theorem C5_measured_mismatch_fails (c1 c2 : Circuit Q) (atol : ℝ)
    (hm : c1.terminalMeasuredQubits ≠ c2.terminalMeasuredQubits) :
    ∃ e : EquivError, assertCircuitsEquivalent c1 c2 atol = Except.error e ∧
      e ≠ EquivError.effectMismatch := by
  rcases canonicalize_measured_mismatch c1 c2 hm with h | h | h
  · exact ⟨.measurementMismatch, by unfold assertCircuitsEquivalent; rw [h], by decide⟩
  · exact ⟨.nonTerminalActual, by unfold assertCircuitsEquivalent; rw [h], by decide⟩
  · exact ⟨.nonTerminalReference, by unfold assertCircuitsEquivalent; rw [h], by decide⟩

/-- Witness for C5 at a concrete input: circuits over `ℕ` measuring `{0}`
and `∅` respectively. -/
theorem C5_measured_mismatch_fails_witness :
    ((⟨{0, 1}, {0}, true, fun _ => oneMat⟩ : Circuit ℕ).terminalMeasuredQubits ≠
      (⟨{0, 1}, ∅, true, fun _ => oneMat⟩ : Circuit ℕ).terminalMeasuredQubits) ∧
    (∃ e : EquivError,
      assertCircuitsEquivalent (⟨{0, 1}, {0}, true, fun _ => oneMat⟩ : Circuit ℕ)
        (⟨{0, 1}, ∅, true, fun _ => oneMat⟩ : Circuit ℕ) 0 = Except.error e ∧
      e ≠ EquivError.effectMismatch) :=
  ⟨by decide, C5_measured_mismatch_fails _ _ 0 (by decide)⟩

/-! ### C8: the canonical qubit order and DOF list -/

/-- C8: the Oracle computes the qubit ordering as the union of both circuits'
qubits sorted in descending order, and builds the DOF list with the
global-phase sentinel (the out-of-range index `len(order)`) first, followed by
the ordering-index of each terminally-measured qubit. -/
theorem C8_canonical_order_and_dofs (c1 c2 : Circuit Q)
    (hsub : c1.terminalMeasuredQubits ⊆ c1.allQubits) :
    (canonOrder c1 c2).Sorted (· ≥ ·) ∧
    (∀ q : Q, q ∈ canonOrder c1 c2 ↔ q ∈ c1.allQubits ∪ c2.allQubits) ∧
    (canonKs c1 c2).head? = some (canonOrder c1 c2).length ∧
    (canonKs c1 c2).tail = (c1.terminalMeasuredQubits.sort (· ≤ ·)).map
        (fun q => (canonOrder c1 c2).indexOf q) ∧
    (∀ q ∈ c1.terminalMeasuredQubits,
        (canonOrder c1 c2).indexOf q < (canonOrder c1 c2).length ∧
        (canonOrder c1 c2).getD ((canonOrder c1 c2).indexOf q) q = q) := by
  refine ⟨?_, ?_, rfl, rfl, ?_⟩
  · unfold canonOrder
    rw [List.Sorted, List.pairwise_reverse]
    exact Finset.sort_sorted (· ≤ ·) (c1.allQubits ∪ c2.allQubits)
  · intro q
    unfold canonOrder
    rw [List.mem_reverse, Finset.mem_sort]
  · intro q hq
    have hmem : q ∈ canonOrder c1 c2 := by
      unfold canonOrder
      rw [List.mem_reverse, Finset.mem_sort]
      exact Finset.mem_union_left _ (hsub hq)
    have hlt : (canonOrder c1 c2).indexOf q < (canonOrder c1 c2).length :=
      List.indexOf_lt_length.mpr hmem
    refine ⟨hlt, ?_⟩
    rw [List.getD_eq_get _ _ hlt]
    exact List.indexOf_get hlt

/-- Witness for C8 at a concrete input: circuits over `ℕ` with qubits
`{0, 1}` and `{1}`, measuring `{0}`. -/
theorem C8_canonical_order_and_dofs_witness :
    ((⟨{0, 1}, {0}, true, fun _ => oneMat⟩ : Circuit ℕ).terminalMeasuredQubits ⊆
      (⟨{0, 1}, {0}, true, fun _ => oneMat⟩ : Circuit ℕ).allQubits) ∧
    ((canonOrder (⟨{0, 1}, {0}, true, fun _ => oneMat⟩ : Circuit ℕ)
        (⟨{1}, {0}, true, fun _ => oneMat⟩ : Circuit ℕ)).Sorted (· ≥ ·) ∧
     (∀ q : ℕ, q ∈ canonOrder (⟨{0, 1}, {0}, true, fun _ => oneMat⟩ : Circuit ℕ)
          (⟨{1}, {0}, true, fun _ => oneMat⟩ : Circuit ℕ) ↔
        q ∈ (⟨{0, 1}, {0}, true, fun _ => oneMat⟩ : Circuit ℕ).allQubits ∪
          (⟨{1}, {0}, true, fun _ => oneMat⟩ : Circuit ℕ).allQubits) ∧
     (canonKs (⟨{0, 1}, {0}, true, fun _ => oneMat⟩ : Circuit ℕ)
        (⟨{1}, {0}, true, fun _ => oneMat⟩ : Circuit ℕ)).head? =
       some (canonOrder (⟨{0, 1}, {0}, true, fun _ => oneMat⟩ : Circuit ℕ)
        (⟨{1}, {0}, true, fun _ => oneMat⟩ : Circuit ℕ)).length ∧
     (canonKs (⟨{0, 1}, {0}, true, fun _ => oneMat⟩ : Circuit ℕ)
        (⟨{1}, {0}, true, fun _ => oneMat⟩ : Circuit ℕ)).tail =
       ((⟨{0, 1}, {0}, true, fun _ => oneMat⟩ : Circuit ℕ).terminalMeasuredQubits.sort
          (· ≤ ·)).map
         (fun q => (canonOrder (⟨{0, 1}, {0}, true, fun _ => oneMat⟩ : Circuit ℕ)
            (⟨{1}, {0}, true, fun _ => oneMat⟩ : Circuit ℕ)).indexOf q) ∧
     (∀ q ∈ (⟨{0, 1}, {0}, true, fun _ => oneMat⟩ : Circuit ℕ).terminalMeasuredQubits,
        (canonOrder (⟨{0, 1}, {0}, true, fun _ => oneMat⟩ : Circuit ℕ)
            (⟨{1}, {0}, true, fun _ => oneMat⟩ : Circuit ℕ)).indexOf q <
          (canonOrder (⟨{0, 1}, {0}, true, fun _ => oneMat⟩ : Circuit ℕ)
            (⟨{1}, {0}, true, fun _ => oneMat⟩ : Circuit ℕ)).length ∧
        (canonOrder (⟨{0, 1}, {0}, true, fun _ => oneMat⟩ : Circuit ℕ)
            (⟨{1}, {0}, true, fun _ => oneMat⟩ : Circuit ℕ)).getD
          ((canonOrder (⟨{0, 1}, {0}, true, fun _ => oneMat⟩ : Circuit ℕ)
            (⟨{1}, {0}, true, fun _ => oneMat⟩ : Circuit ℕ)).indexOf q) q = q)) :=
  ⟨by decide,
   C8_canonical_order_and_dofs (⟨{0, 1}, {0}, true, fun _ => oneMat⟩ : Circuit ℕ)
     (⟨{1}, {0}, true, fun _ => oneMat⟩ : Circuit ℕ) (by decide)⟩

/-! ### C1: a degenerate DOF column makes the solver raise, not continue -/

/-- C1 (amended): whenever the elimination reaches a DOF column in which no
not-yet-used row has a non-zero entry, `_cancel_qubit_phase` raises (Python's
`min` over an empty generator raises `ValueError`, modelled as `none`); the
degenerate case is not silently tolerated and no further correction is
applied. -/
theorem C1_degenerate_column_raises (N : ℕ) (m1 m2 : Mat) (qubits : List ℕ)
    (cols1 cols2 : List ℕ) (col : ℕ) (s : (ℕ → ℕ → ℝ) × List ℕ)
    (hsplit : List.range qubits.length = cols1 ++ col :: cols2)
    (hrun : elimLoop N (probInit N m1 m2 qubits, []) cols1 = some s)
    (hdeg : ∀ r < N, r ∈ s.2 ∨ s.1 r col = 0) :
    cancelQubitPhase N m1 m2 qubits = none := by
  unfold cancelQubitPhase
  rw [hsplit, elimLoop_append, hrun, Option.some_bind]
  have hpick := pick_eq_none_of N s.1 s.2 col hdeg
  simp only [elimLoop, hpick]

theorem probDeg_00 : probInit 2 idMat idMat [1, 1] 0 0 = 1 := by
  unfold probInit
  rw [if_pos (by decide), if_neg (by decide)]

theorem probDeg_01 : probInit 2 idMat idMat [1, 1] 0 1 = 1 := by
  unfold probInit
  rw [if_pos (by decide), if_neg (by decide)]

theorem probDeg_10 : probInit 2 idMat idMat [1, 1] 1 0 = 1 := by
  unfold probInit
  rw [if_pos (by decide), if_neg (by decide)]

theorem probDeg_11 : probInit 2 idMat idMat [1, 1] 1 1 = 1 := by
  unfold probInit
  rw [if_pos (by decide), if_neg (by decide)]

theorem pick_deg_first : pick 2 (probInit 2 idMat idMat [1, 1]) [] 0 = some 0 := by
  apply pick_eq_some_of 2 _ [] 0 0 (by norm_num) (List.not_mem_nil 0)
  · rw [probDeg_00]
    norm_num
  · intro y hy
    exact absurd hy (Nat.not_lt_zero y)

theorem elim_deg_first :
    elimLoop 2 (probInit 2 idMat idMat [1, 1], []) [0] =
      some (elimStep 2 (probInit 2 idMat idMat [1, 1]) 0 0, [0]) := by
  simp only [elimLoop, pick_deg_first]

theorem deg_second_column :
    ∀ r < 2, r ∈ ([0] : List ℕ) ∨ elimStep 2 (probInit 2 idMat idMat [1, 1]) 0 0 r 1 = 0 := by
  intro r hr
  interval_cases r
  · left
    exact List.mem_singleton_self 0
  · right
    unfold elimStep
    rw [if_neg (by decide), if_pos (by decide), probDeg_11, probDeg_10, probDeg_01, probDeg_00]
    norm_num

theorem cancel_deg_none : cancelQubitPhase 2 idMat idMat [1, 1] = none := by
  unfold cancelQubitPhase
  have hr2 : List.range ([1, 1] : List ℕ).length = [0] ++ 1 :: [] := by decide
  rw [hr2, elimLoop_append, elim_deg_first, Option.some_bind]
  have hpick := pick_eq_none_of 2 _ [0] 1 (deg_second_column)
  simp only [elimLoop, hpick]

/-- Counterexample to C1 as stated: with `m1 = m2` the 2×2 identity and DOF
list `[1, 1]` (the global-phase sentinel twice), the second DOF column is
degenerate (after the first elimination step no unused row has a non-zero
entry in it), and `_cancel_qubit_phase` raises (`none`) instead of applying
no correction for that DOF and continuing. -/
theorem C1_degenerate_column_counterexample :
    elimLoop 2 (probInit 2 idMat idMat [1, 1], []) [0] =
      some (elimStep 2 (probInit 2 idMat idMat [1, 1]) 0 0, [0]) ∧
    (∀ r < 2, r ∈ ([0] : List ℕ) ∨ elimStep 2 (probInit 2 idMat idMat [1, 1]) 0 0 r 1 = 0) ∧
    cancelQubitPhase 2 idMat idMat [1, 1] = none :=
  ⟨elim_deg_first, deg_second_column, cancel_deg_none⟩

/-- Witness for the amended C1 at the same concrete degenerate input. -/
theorem C1_degenerate_column_raises_witness :
    (List.range ([1, 1] : List ℕ).length = [0] ++ 1 :: []) ∧
    (elimLoop 2 (probInit 2 idMat idMat [1, 1], []) [0] =
      some (elimStep 2 (probInit 2 idMat idMat [1, 1]) 0 0, [0])) ∧
    (∀ r < 2, r ∈ (elimStep 2 (probInit 2 idMat idMat [1, 1]) 0 0, [0]).2 ∨
      (elimStep 2 (probInit 2 idMat idMat [1, 1]) 0 0, [0]).1 r 1 = 0) ∧
    cancelQubitPhase 2 idMat idMat [1, 1] = none :=
  ⟨by decide, elim_deg_first, deg_second_column,
   C1_degenerate_column_raises 2 idMat idMat [1, 1] [0] [] 1 _ (by decide)
     elim_deg_first deg_second_column⟩

/-! ### C3: DOF order does not change the outcome.

Strategy: two elimination runs over column lists that are permutations of one
another stay related by a row relabelling supported on the pivot rows
(`StateRel`); adjacent transpositions of the processing order are handled by
an explicit two-step commutation computation, and the general case follows by
induction on `List.Perm`.  Because the processed columns end up as standard
basis vectors, the extracted phase of each DOF is independent of the
relabelling, so the corrected matrix (a product of the per-DOF factors, which
multiplication reorders freely) is literally the same function. -/

theorem stateRel_refl (N : ℕ) (s : (ℕ → ℕ → ℝ) × List ℕ) (h : ∀ r ∈ s.2, r < N) :
    StateRel N (Equiv.refl ℕ) s s :=
  ⟨fun _ _ => rfl, fun _ => Iff.rfl, h, fun _ _ => rfl⟩

theorem stateRel_trans (N : ℕ) (ρ τ : Equiv.Perm ℕ) (s s' s'' : (ℕ → ℕ → ℝ) × List ℕ)
    (h1 : StateRel N ρ s s') (h2 : StateRel N τ s' s'') :
    StateRel N (τ.trans ρ) s s'' := by
  obtain ⟨a1, b1, c1, d1⟩ := h1
  obtain ⟨a2, b2, _, d2⟩ := h2
  refine ⟨fun r hr => ?_, fun r => (b1 r).trans (b2 r), c1, fun r c => ?_⟩
  · have hr' : r ∉ s'.2 := fun hm => hr ((b1 r).mpr hm)
    show ρ (τ r) = r
    rw [a2 r hr', a1 r hr]
  · show s''.1 r c = s.1 (ρ (τ r)) c
    rw [d2 r c, d1 (τ r) c]

theorem stateRel_maps_used (N : ℕ) (ρ : Equiv.Perm ℕ) (s s' : (ℕ → ℕ → ℝ) × List ℕ)
    (h : StateRel N ρ s s') (r : ℕ) (hr : r ∈ s.2) : ρ r ∈ s.2 := by
  by_contra hn
  have h1 : ρ (ρ r) = ρ r := h.1 (ρ r) hn
  have h2 : ρ r = r := ρ.injective h1
  rw [h2] at hn
  exact hn hr

theorem stateRel_lt (N : ℕ) (ρ : Equiv.Perm ℕ) (s s' : (ℕ → ℕ → ℝ) × List ℕ)
    (h : StateRel N ρ s s') (r : ℕ) (hr : r < N) : ρ r < N := by
  by_cases hm : r ∈ s.2
  · exact h.2.2.1 _ (stateRel_maps_used N ρ s s' h r hm)
  · rw [h.1 r hm]
    exact hr

theorem pick_congr (N : ℕ) (p p' : ℕ → ℕ → ℝ) (u u' : List ℕ) (col col' : ℕ)
    (h : ∀ r, r < N → ((r ∉ u ∧ p r col ≠ 0) ↔ (r ∉ u' ∧ p' r col' ≠ 0))) :
    pick N p u col = pick N p' u' col' := by
  unfold pick
  congr 1
  apply List.filter_congr
  intro r hr
  simp only [decide_eq_decide]
  exact h r (List.mem_range.mp hr)

theorem pick_eq_some_inv (N : ℕ) (p : ℕ → ℕ → ℝ) (used : List ℕ) (col x : ℕ)
    (h : pick N p used col = some x) :
    x < N ∧ x ∉ used ∧ p x col ≠ 0 ∧ ∀ y, y < x → y ∈ used ∨ p y col = 0 := by
  unfold pick at h
  have hmem : x ∈ (List.range N).filter (fun r => decide (r ∉ used ∧ p r col ≠ 0)) :=
    List.mem_of_mem_head? h
  have hx := List.mem_filter.mp hmem
  have hx1 : x < N := List.mem_range.mp hx.1
  have hx2 : x ∉ used ∧ p x col ≠ 0 := of_decide_eq_true hx.2
  refine ⟨hx1, hx2.1, hx2.2, fun y hy => ?_⟩
  by_contra hcon
  push_neg at hcon
  have hymem : y ∈ (List.range N).filter (fun r => decide (r ∉ used ∧ p r col ≠ 0)) :=
    List.mem_filter.mpr ⟨List.mem_range.mpr (hy.trans hx1),
      decide_eq_true ⟨hcon.1, hcon.2⟩⟩
  have hsorted : ((List.range N).filter
      (fun r => decide (r ∉ used ∧ p r col ≠ 0))).Pairwise (· < ·) :=
    List.Pairwise.sublist (List.filter_sublist _) (List.pairwise_lt_range N)
  obtain ⟨tl, htl⟩ := List.head?_eq_some_iff.mp h
  rw [htl] at hymem hsorted
  rcases List.mem_cons.mp hymem with h1 | h1
  · exact absurd hy (h1 ▸ lt_irrefl x)
  · exact absurd hy (not_lt_of_lt ((List.pairwise_cons.mp hsorted).1 y h1))

theorem pick_eq_none_inv (N : ℕ) (p : ℕ → ℕ → ℝ) (used : List ℕ) (col : ℕ)
    (h : pick N p used col = none) :
    ∀ r, r < N → r ∈ used ∨ p r col = 0 := by
  unfold pick at h
  rw [List.head?_eq_none_iff] at h
  intro r hr
  by_contra hcon
  push_neg at hcon
  have : r ∈ (List.range N).filter (fun r => decide (r ∉ used ∧ p r col ≠ 0)) :=
    List.mem_filter.mpr ⟨List.mem_range.mpr hr, decide_eq_true ⟨hcon.1, hcon.2⟩⟩
  rw [h] at this
  exact absurd this (List.not_mem_nil r)

theorem stateRel_pick (N : ℕ) (ρ : Equiv.Perm ℕ) (s s' : (ℕ → ℕ → ℝ) × List ℕ)
    (h : StateRel N ρ s s') (col : ℕ) :
    pick N s'.1 s'.2 col = pick N s.1 s.2 col := by
  apply pick_congr
  intro r _
  constructor
  · rintro ⟨hru, hrp⟩
    have hrs : r ∉ s.2 := fun hm => hru ((h.2.1 r).mp hm)
    rw [h.2.2.2 r col, h.1 r hrs] at hrp
    exact ⟨hrs, hrp⟩
  · rintro ⟨hru, hrp⟩
    refine ⟨fun hm => hru ((h.2.1 r).mpr hm), ?_⟩
    rw [h.2.2.2 r col, h.1 r hru]
    exact hrp

theorem stateRel_step (N : ℕ) (ρ : Equiv.Perm ℕ) (s s' : (ℕ → ℕ → ℝ) × List ℕ)
    (h : StateRel N ρ s s') (chosen col : ℕ) (hc : chosen < N) (hcu : chosen ∉ s.2) :
    StateRel N ρ (elimStep N s.1 chosen col, chosen :: s.2)
      (elimStep N s'.1 chosen col, chosen :: s'.2) := by
  have ha := h.1
  have hb := h.2.1
  have hlt := h.2.2.1
  have hd := h.2.2.2
  have hfix : ρ chosen = chosen := ha chosen hcu
  refine ⟨?_, ?_, ?_, ?_⟩
  · intro r hr
    exact ha r (fun hm => hr (List.mem_cons_of_mem _ hm))
  · intro r
    simp only [List.mem_cons]
    exact or_congr Iff.rfl (hb r)
  · intro r hr
    rcases List.mem_cons.mp hr with h1 | h1
    · exact h1 ▸ hc
    · exact hlt r h1
  · intro r c
    show elimStep N s'.1 chosen col r c = elimStep N s.1 chosen col (ρ r) c
    unfold elimStep
    by_cases hr : r = chosen
    · subst hr
      rw [if_pos rfl, hfix, if_pos rfl, hd r c, hd r col, hfix]
    · have hρr : ρ r ≠ chosen := fun he => hr (ρ.injective (he.trans hfix.symm))
      rw [if_neg hr, if_neg hρr]
      by_cases hrN : r < N
      · have hρN : ρ r < N := stateRel_lt N ρ s s' h r hrN
        rw [if_pos hrN, if_pos hρN, hd r c, hd r col, hd chosen c, hd chosen col, hfix]
      · have hm : r ∉ s.2 := fun hm => hrN (hlt r hm)
        have hfr : ρ r = r := ha r hm
        rw [if_neg hrN, hfr, if_neg hrN, hd r c, hfr]

theorem stateRel_loop (N : ℕ) (cols : List ℕ) :
    ∀ (ρ : Equiv.Perm ℕ) (s s' : (ℕ → ℕ → ℝ) × List ℕ), StateRel N ρ s s' →
    (elimLoop N s cols = none ∧ elimLoop N s' cols = none) ∨
    (∃ t t', elimLoop N s cols = some t ∧ elimLoop N s' cols = some t' ∧
      StateRel N ρ t t') := by
  induction cols with
  | nil =>
    intro ρ s s' h
    exact Or.inr ⟨s, s', rfl, rfl, h⟩
  | cons col rest ih =>
    intro ρ s s' h
    have hpick := stateRel_pick N ρ s s' h col
    cases hp : pick N s.1 s.2 col with
    | none =>
      left
      constructor
      · simp only [elimLoop, hp]
      · simp only [elimLoop, hpick, hp]
    | some chosen =>
      obtain ⟨hc1, hc2, _, _⟩ := pick_eq_some_inv N s.1 s.2 col chosen hp
      have hstep := stateRel_step N ρ s s' h chosen col hc1 hc2
      rcases ih ρ _ _ hstep with ⟨h1, h2⟩ | ⟨t, t', h1, h2, h3⟩
      · left
        constructor
        · simp only [elimLoop, hp]
          exact h1
        · simp only [elimLoop, hpick, hp]
          exact h2
      · right
        refine ⟨t, t', ?_, ?_, h3⟩
        · simp only [elimLoop, hp]
          exact h1
        · simp only [elimLoop, hpick, hp]
          exact h2

theorem elimStep_self (N : ℕ) (p : ℕ → ℕ → ℝ) (chosen col c : ℕ) :
    elimStep N p chosen col chosen c = p chosen c / p chosen col := by
  unfold elimStep
  rw [if_pos rfl]

theorem elimStep_other (N : ℕ) (p : ℕ → ℕ → ℝ) (chosen col r c : ℕ)
    (h1 : r ≠ chosen) (h2 : r < N) :
    elimStep N p chosen col r c = p r c - p r col * (p chosen c / p chosen col) := by
  unfold elimStep
  rw [if_neg h1, if_pos h2]

theorem elimStep_ge (N : ℕ) (p : ℕ → ℕ → ℝ) (chosen col r c : ℕ)
    (h1 : r ≠ chosen) (h2 : ¬ r < N) :
    elimStep N p chosen col r c = p r c := by
  unfold elimStep
  rw [if_neg h1, if_neg h2]

/-- Processing column `a` with pivot `ra` and then column `b` with pivot `rb`
yields the same array as processing them in the opposite order with the same
pivot assignment, whenever the four pivot entries involved are non-zero. -/
theorem elim_comm_same (N : ℕ) (p : ℕ → ℕ → ℝ) (ra rb a b : ℕ)
    (hne : ra ≠ rb) (hraN : ra < N) (hrbN : rb < N)
    (ha0 : p ra a ≠ 0) (hb1 : p rb b ≠ 0)
    (hD : p rb b - p rb a * (p ra b / p ra a) ≠ 0) :
    ∀ r c, elimStep N (elimStep N p ra a) rb b r c
         = elimStep N (elimStep N p rb b) ra a r c := by
  have hΔ : p ra a * p rb b - p rb a * p ra b ≠ 0 := by
    have h1 : p ra a * p rb b - p rb a * p ra b
        = (p rb b - p rb a * (p ra b / p ra a)) * p ra a := by
      field_simp
      ring
    rw [h1]
    exact mul_ne_zero hD ha0
  have hDrw : p rb b - p rb a * (p ra b / p ra a)
      = (p ra a * p rb b - p rb a * p ra b) / p ra a := by
    field_simp
    ring
  have hD'rw : p ra a - p ra b * (p rb a / p rb b)
      = (p ra a * p rb b - p rb a * p ra b) / p rb b := by
    field_simp
    ring
  intro r c
  by_cases hr1 : r = ra
  · rw [hr1]
    rw [elimStep_other N (elimStep N p ra a) rb b ra c hne hraN,
      elimStep_self N p ra a c, elimStep_self N p ra a b,
      elimStep_other N p ra a rb c hne.symm hrbN,
      elimStep_other N p ra a rb b hne.symm hrbN,
      elimStep_self N (elimStep N p rb b) ra a c,
      elimStep_other N p rb b ra c hne hraN,
      elimStep_other N p rb b ra a hne hraN]
    rw [hDrw, hD'rw]
    simp only [div_div_eq_mul_div]
    field_simp
    ring
  · by_cases hr2 : r = rb
    · rw [hr2]
      rw [elimStep_self N (elimStep N p ra a) rb b c,
        elimStep_other N p ra a rb c hne.symm hrbN,
        elimStep_other N p ra a rb b hne.symm hrbN,
        elimStep_other N (elimStep N p rb b) ra a rb c hne.symm hrbN,
        elimStep_self N p rb b c, elimStep_self N p rb b a,
        elimStep_other N p rb b ra c hne hraN,
        elimStep_other N p rb b ra a hne hraN]
      rw [hDrw, hD'rw]
      simp only [div_div_eq_mul_div]
      field_simp
      ring
    · by_cases hrN : r < N
      · rw [elimStep_other N (elimStep N p ra a) rb b r c hr2 hrN,
          elimStep_other N p ra a r c hr1 hrN,
          elimStep_other N p ra a r b hr1 hrN,
          elimStep_other N p ra a rb c hne.symm hrbN,
          elimStep_other N p ra a rb b hne.symm hrbN,
          elimStep_other N (elimStep N p rb b) ra a r c hr1 hrN,
          elimStep_other N p rb b r c hr2 hrN,
          elimStep_other N p rb b r a hr2 hrN,
          elimStep_other N p rb b ra c hne hraN,
          elimStep_other N p rb b ra a hne hraN]
        rw [hDrw, hD'rw]
        simp only [div_div_eq_mul_div]
        field_simp
        ring
      · rw [elimStep_ge N (elimStep N p ra a) rb b r c hr2 hrN,
          elimStep_ge N p ra a r c hr1 hrN,
          elimStep_ge N (elimStep N p rb b) ra a r c hr1 hrN,
          elimStep_ge N p rb b r c hr2 hrN]

/-- Processing column `b` with pivot `ra` and then column `a` with pivot `r2`
yields, up to swapping the two pivot rows, the same array as processing
column `a` with pivot `ra` and then column `b` with pivot `r2`. -/
theorem elim_comm_swap (N : ℕ) (p : ℕ → ℕ → ℝ) (ra r2 a b : ℕ)
    (hne : ra ≠ r2) (hraN : ra < N) (hr2N : r2 < N)
    (ha0 : p ra a ≠ 0) (hb0 : p ra b ≠ 0)
    (hD : p r2 b - p r2 a * (p ra b / p ra a) ≠ 0) :
    ∀ r c, elimStep N (elimStep N p ra b) r2 a r c
         = elimStep N (elimStep N p ra a) r2 b (Equiv.swap ra r2 r) c := by
  have hΔ : p ra a * p r2 b - p r2 a * p ra b ≠ 0 := by
    have h1 : p ra a * p r2 b - p r2 a * p ra b
        = (p r2 b - p r2 a * (p ra b / p ra a)) * p ra a := by
      field_simp
      ring
    rw [h1]
    exact mul_ne_zero hD ha0
  have hΔ' : p r2 a * p ra b - p ra a * p r2 b ≠ 0 := by
    intro h0
    apply hΔ
    linarith [h0]
  have hDrw : p r2 b - p r2 a * (p ra b / p ra a)
      = (p ra a * p r2 b - p r2 a * p ra b) / p ra a := by
    field_simp
    ring
  have hD'rw : p r2 a - p r2 b * (p ra a / p ra b)
      = (p r2 a * p ra b - p ra a * p r2 b) / p ra b := by
    field_simp
    ring
  intro r c
  by_cases hr1 : r = ra
  · rw [hr1]
    rw [Equiv.swap_apply_left]
    rw [elimStep_other N (elimStep N p ra b) r2 a ra c hne hraN,
      elimStep_self N p ra b c, elimStep_self N p ra b a,
      elimStep_other N p ra b r2 c hne.symm hr2N,
      elimStep_other N p ra b r2 a hne.symm hr2N,
      elimStep_self N (elimStep N p ra a) r2 b c,
      elimStep_other N p ra a r2 c hne.symm hr2N,
      elimStep_other N p ra a r2 b hne.symm hr2N]
    rw [hDrw, hD'rw]
    simp only [div_div_eq_mul_div]
    field_simp
    ring
  · by_cases hr2' : r = r2
    · rw [hr2']
      rw [Equiv.swap_apply_right]
      rw [elimStep_self N (elimStep N p ra b) r2 a c,
        elimStep_other N p ra b r2 c hne.symm hr2N,
        elimStep_other N p ra b r2 a hne.symm hr2N,
        elimStep_other N (elimStep N p ra a) r2 b ra c hne hraN,
        elimStep_self N p ra a c, elimStep_self N p ra a b,
        elimStep_other N p ra a r2 c hne.symm hr2N,
        elimStep_other N p ra a r2 b hne.symm hr2N]
      rw [hDrw, hD'rw]
      simp only [div_div_eq_mul_div]
      field_simp
      ring
    · rw [Equiv.swap_apply_of_ne_of_ne hr1 hr2']
      by_cases hrN : r < N
      · rw [elimStep_other N (elimStep N p ra b) r2 a r c hr2' hrN,
          elimStep_other N p ra b r c hr1 hrN,
          elimStep_other N p ra b r a hr1 hrN,
          elimStep_other N p ra b r2 c hne.symm hr2N,
          elimStep_other N p ra b r2 a hne.symm hr2N,
          elimStep_other N (elimStep N p ra a) r2 b r c hr2' hrN,
          elimStep_other N p ra a r c hr1 hrN,
          elimStep_other N p ra a r b hr1 hrN,
          elimStep_other N p ra a r2 c hne.symm hr2N,
          elimStep_other N p ra a r2 b hne.symm hr2N]
        rw [hDrw, hD'rw]
        simp only [div_div_eq_mul_div]
        field_simp
        ring
      · rw [elimStep_ge N (elimStep N p ra b) r2 a r c hr2' hrN,
          elimStep_ge N p ra b r c hr1 hrN,
          elimStep_ge N (elimStep N p ra a) r2 b r c hr2' hrN,
          elimStep_ge N p ra a r c hr1 hrN]

/-- Processing two columns of the linear system in either order from the same
state either crashes in both orders, or succeeds in both orders with final
states related by a row relabelling supported on the two pivot rows. -/
theorem elim_swap2 (N : ℕ) (s : (ℕ → ℕ → ℝ) × List ℕ) (hused : ∀ r ∈ s.2, r < N)
    (a b : ℕ) :
    (elimLoop N s [a, b] = none ∧ elimLoop N s [b, a] = none) ∨
    (∃ ρ t t', elimLoop N s [a, b] = some t ∧ elimLoop N s [b, a] = some t' ∧
      StateRel N ρ t t') := by
  obtain ⟨p, u⟩ := s
  cases hpa : pick N p u a with
  | none =>
    cases hpb : pick N p u b with
    | none =>
      left
      constructor
      · simp only [elimLoop, hpa]
      · simp only [elimLoop, hpb]
    | some rb =>
      obtain ⟨hrbN, hrbu, hrbp, _⟩ := pick_eq_some_inv N p u b rb hpb
      have hnone := pick_eq_none_inv N p u a hpa
      have h2 : pick N (elimStep N p rb b) (rb :: u) a = none := by
        apply pick_eq_none_of
        intro r hrN
        by_cases hru : r ∈ rb :: u
        · exact Or.inl hru
        · right
          have hr1 : r ≠ rb := fun h => hru (h ▸ List.mem_cons_self rb u)
          have hr2 : r ∉ u := fun h => hru (List.mem_cons_of_mem _ h)
          have hpa0 : p r a = 0 := (hnone r hrN).resolve_left hr2
          have hpra : p rb a = 0 := (hnone rb hrbN).resolve_left hrbu
          rw [elimStep_other N p rb b r a hr1 hrN, hpa0, hpra]
          simp
      left
      constructor
      · simp only [elimLoop, hpa]
      · simp only [elimLoop, hpb, h2]
  | some ra =>
    obtain ⟨hraN, hrau, hrap, hramin⟩ := pick_eq_some_inv N p u a ra hpa
    cases hpb : pick N p u b with
    | none =>
      have hnone := pick_eq_none_inv N p u b hpb
      have h2 : pick N (elimStep N p ra a) (ra :: u) b = none := by
        apply pick_eq_none_of
        intro r hrN
        by_cases hru : r ∈ ra :: u
        · exact Or.inl hru
        · right
          have hr1 : r ≠ ra := fun h => hru (h ▸ List.mem_cons_self ra u)
          have hr2 : r ∉ u := fun h => hru (List.mem_cons_of_mem _ h)
          have hpb0 : p r b = 0 := (hnone r hrN).resolve_left hr2
          have hprb : p ra b = 0 := (hnone ra hraN).resolve_left hrau
          rw [elimStep_other N p ra a r b hr1 hrN, hpb0, hprb]
          simp
      left
      constructor
      · simp only [elimLoop, hpa, h2]
      · simp only [elimLoop, hpb]
    | some rb0 =>
      obtain ⟨hrbN, hrbu, hrbp, hrbmin⟩ := pick_eq_some_inv N p u b rb0 hpb
      by_cases hlam : p ra b = 0
      · -- the pivot row of `a` has a zero in column `b`: same pivot assignment
        have hne : ra ≠ rb0 := fun h => hrbp (h ▸ hlam)
        have hA2 : pick N (elimStep N p ra a) (ra :: u) b = some rb0 := by
          refine pick_eq_some_of N _ _ b rb0 hrbN ?_ ?_ ?_
          · intro h
            rcases List.mem_cons.mp h with h1 | h1
            · exact hne h1.symm
            · exact hrbu h1
          · rw [elimStep_other N p ra a rb0 b (fun h => hne h.symm) hrbN, hlam]
            simpa using hrbp
          · intro y hy
            by_cases hyra : y = ra
            · exact Or.inl (hyra ▸ List.mem_cons_self _ _)
            by_cases hyu : y ∈ u
            · exact Or.inl (List.mem_cons_of_mem _ hyu)
            have h1 : p y b = 0 := (hrbmin y hy).resolve_left hyu
            right
            rw [elimStep_other N p ra a y b hyra (hy.trans hrbN), h1, hlam]
            simp
        have hB2 : pick N (elimStep N p rb0 b) (rb0 :: u) a = some ra := by
          refine pick_eq_some_of N _ _ a ra hraN ?_ ?_ ?_
          · intro h
            rcases List.mem_cons.mp h with h1 | h1
            · exact hne h1
            · exact hrau h1
          · rw [elimStep_other N p rb0 b ra a hne hraN, hlam]
            simpa using hrap
          · intro y hy
            by_cases hyrb : y = rb0
            · exact Or.inl (hyrb ▸ List.mem_cons_self _ _)
            by_cases hyu : y ∈ u
            · exact Or.inl (List.mem_cons_of_mem _ hyu)
            have h1 : p y a = 0 := (hramin y hy).resolve_left hyu
            right
            rw [elimStep_other N p rb0 b y a hyrb (hy.trans hraN), h1]
            by_cases hmu : p rb0 a = 0
            · rw [hmu]
              simp
            · have hrarb : ra ≤ rb0 := by
                by_contra hlt
                push_neg at hlt
                rcases hramin rb0 hlt with h2 | h2
                · exact hrbu h2
                · exact hmu h2
              have hyb : p y b = 0 :=
                (hrbmin y (lt_of_lt_of_le hy hrarb)).resolve_left hyu
              rw [hyb]
              simp
        have hDne : p rb0 b - p rb0 a * (p ra b / p ra a) ≠ 0 := by
          rw [hlam]
          simpa using hrbp
        right
        refine ⟨Equiv.refl ℕ,
          (elimStep N (elimStep N p ra a) rb0 b, rb0 :: ra :: u),
          (elimStep N (elimStep N p rb0 b) ra a, ra :: rb0 :: u), ?_, ?_, ?_⟩
        · simp only [elimLoop, hpa, hA2]
        · simp only [elimLoop, hpb, hB2]
        · refine ⟨fun _ _ => rfl, ?_, ?_, ?_⟩
          · intro r
            simp only [List.mem_cons]
            tauto
          · intro r hr
            rcases List.mem_cons.mp hr with h1 | h1
            · exact h1 ▸ hrbN
            rcases List.mem_cons.mp h1 with h2 | h2
            · exact h2 ▸ hraN
            · exact hused r h2
          · intro r c
            show elimStep N (elimStep N p rb0 b) ra a r c
              = elimStep N (elimStep N p ra a) rb0 b ((Equiv.refl ℕ) r) c
            rw [Equiv.refl_apply]
            exact (elim_comm_same N p ra rb0 a b hne hraN hrbN hrap hrbp hDne r c).symm
      · -- the pivot row of `a` is usable for `b` as well
        by_cases hab : rb0 = ra
        · -- both columns want the same pivot row: transposed assignment
          subst hab
          have hpk : pick N (elimStep N p rb0 b) (rb0 :: u) a
              = pick N (elimStep N p rb0 a) (rb0 :: u) b := by
            apply pick_congr
            intro r hrN
            by_cases hru : r ∈ rb0 :: u
            · constructor
              · rintro ⟨h1, _⟩
                exact absurd hru h1
              · rintro ⟨h1, _⟩
                exact absurd hru h1
            · have hr1 : r ≠ rb0 := fun h => hru (h ▸ List.mem_cons_self _ _)
              have hscale : elimStep N p rb0 b r a
                  = -(p rb0 a / p rb0 b) * elimStep N p rb0 a r b := by
                rw [elimStep_other N p rb0 b r a hr1 hrN,
                  elimStep_other N p rb0 a r b hr1 hrN]
                field_simp
                ring
              constructor
              · rintro ⟨_, h2⟩
                refine ⟨hru, fun h0 => h2 ?_⟩
                rw [hscale, h0, mul_zero]
              · rintro ⟨_, h2⟩
                refine ⟨hru, fun h0 => h2 ?_⟩
                rw [hscale] at h0
                rcases mul_eq_zero.mp h0 with h3 | h3
                · exfalso
                  rw [neg_eq_zero, div_eq_zero_iff] at h3
                  rcases h3 with h4 | h4
                  · exact hrap h4
                  · exact hrbp h4
                · exact h3
          cases hA2 : pick N (elimStep N p rb0 a) (rb0 :: u) b with
          | none =>
            have hB2 : pick N (elimStep N p rb0 b) (rb0 :: u) a = none :=
              hpk.trans hA2
            left
            constructor
            · simp only [elimLoop, hpa, hA2]
            · simp only [elimLoop, hpb, hB2]
          | some r2 =>
            obtain ⟨hr2N, hr2u, hr2p, _⟩ := pick_eq_some_inv N _ _ b r2 hA2
            have hB2 : pick N (elimStep N p rb0 b) (rb0 :: u) a = some r2 :=
              hpk.trans hA2
            have hr2ra : r2 ≠ rb0 := fun h => hr2u (h ▸ List.mem_cons_self _ _)
            have hDne : p r2 b - p r2 a * (p rb0 b / p rb0 a) ≠ 0 := by
              have h0 := hr2p
              rwa [elimStep_other N p rb0 a r2 b hr2ra hr2N] at h0
            right
            refine ⟨Equiv.swap rb0 r2,
              (elimStep N (elimStep N p rb0 a) r2 b, r2 :: rb0 :: u),
              (elimStep N (elimStep N p rb0 b) r2 a, r2 :: rb0 :: u), ?_, ?_, ?_⟩
            · simp only [elimLoop, hpa, hA2]
            · simp only [elimLoop, hpb, hB2]
            · refine ⟨?_, fun r => Iff.rfl, ?_, ?_⟩
              · intro r hr
                simp only [List.mem_cons] at hr
                push_neg at hr
                exact Equiv.swap_apply_of_ne_of_ne hr.2.1 hr.1
              · intro r hr
                rcases List.mem_cons.mp hr with h1 | h1
                · exact h1 ▸ hr2N
                rcases List.mem_cons.mp h1 with h2 | h2
                · exact h2 ▸ hraN
                · exact hused r h2
              · intro r c
                exact elim_comm_swap N p rb0 r2 a b (fun h => hr2ra h.symm)
                  hraN hr2N hrap hlam hDne r c
        · -- distinct pivot rows, and the pivot row of `b` has a zero in
          -- column `a`: same pivot assignment again
          have hne : ra ≠ rb0 := fun h => hab h.symm
          have hbra : rb0 < ra := by
            rcases lt_or_ge rb0 ra with h1 | h1
            · exact h1
            · exfalso
              have h2 : ra < rb0 := lt_of_le_of_ne h1 (fun h => hab h.symm)
              rcases hrbmin ra h2 with h3 | h3
              · exact hrau h3
              · exact hlam h3
          have hmu : p rb0 a = 0 := (hramin rb0 hbra).resolve_left hrbu
          have hA2 : pick N (elimStep N p ra a) (ra :: u) b = some rb0 := by
            refine pick_eq_some_of N _ _ b rb0 hrbN ?_ ?_ ?_
            · intro h
              rcases List.mem_cons.mp h with h1 | h1
              · exact hne h1.symm
              · exact hrbu h1
            · rw [elimStep_other N p ra a rb0 b (fun h => hne h.symm) hrbN, hmu]
              simpa using hrbp
            · intro y hy
              by_cases hyra : y = ra
              · exact Or.inl (hyra ▸ List.mem_cons_self _ _)
              by_cases hyu : y ∈ u
              · exact Or.inl (List.mem_cons_of_mem _ hyu)
              have h1 : p y b = 0 := (hrbmin y hy).resolve_left hyu
              have h1' : p y a = 0 :=
                (hramin y (hy.trans hbra)).resolve_left hyu
              right
              rw [elimStep_other N p ra a y b hyra (hy.trans hrbN), h1, h1']
              simp
          have hB2 : pick N (elimStep N p rb0 b) (rb0 :: u) a = some ra := by
            refine pick_eq_some_of N _ _ a ra hraN ?_ ?_ ?_
            · intro h
              rcases List.mem_cons.mp h with h1 | h1
              · exact hne h1
              · exact hrau h1
            · rw [elimStep_other N p rb0 b ra a hne hraN, hmu]
              simpa using hrap
            · intro y hy
              by_cases hyrb : y = rb0
              · exact Or.inl (hyrb ▸ List.mem_cons_self _ _)
              by_cases hyu : y ∈ u
              · exact Or.inl (List.mem_cons_of_mem _ hyu)
              have h1 : p y a = 0 := (hramin y hy).resolve_left hyu
              right
              rw [elimStep_other N p rb0 b y a hyrb (hy.trans hraN), h1, hmu]
              simp
          have hDne : p rb0 b - p rb0 a * (p ra b / p ra a) ≠ 0 := by
            rw [hmu]
            simpa using hrbp
          right
          refine ⟨Equiv.refl ℕ,
            (elimStep N (elimStep N p ra a) rb0 b, rb0 :: ra :: u),
            (elimStep N (elimStep N p rb0 b) ra a, ra :: rb0 :: u), ?_, ?_, ?_⟩
          · simp only [elimLoop, hpa, hA2]
          · simp only [elimLoop, hpb, hB2]
          · refine ⟨fun _ _ => rfl, ?_, ?_, ?_⟩
            · intro r
              simp only [List.mem_cons]
              tauto
            · intro r hr
              rcases List.mem_cons.mp hr with h1 | h1
              · exact h1 ▸ hrbN
              rcases List.mem_cons.mp h1 with h2 | h2
              · exact h2 ▸ hraN
              · exact hused r h2
            · intro r c
              show elimStep N (elimStep N p rb0 b) ra a r c
                = elimStep N (elimStep N p ra a) rb0 b ((Equiv.refl ℕ) r) c
              rw [Equiv.refl_apply]
              exact (elim_comm_same N p ra rb0 a b hne hraN hrbN hrap hrbp hDne r c).symm

/-- Elimination runs over two processing orders that are permutations of one
another, started from `StateRel`-related states, either both crash or both
succeed with `StateRel`-related final states. -/
theorem elimLoop_perm (N : ℕ) (cols cols' : List ℕ) (hperm : cols.Perm cols') :
    ∀ (ρ : Equiv.Perm ℕ) (s s' : (ℕ → ℕ → ℝ) × List ℕ), StateRel N ρ s s' →
    (elimLoop N s cols = none ∧ elimLoop N s' cols' = none) ∨
    (∃ τ t t', elimLoop N s cols = some t ∧ elimLoop N s' cols' = some t' ∧
      StateRel N τ t t') := by
  induction hperm with
  | nil =>
    intro ρ s s' h
    exact Or.inr ⟨ρ, s, s', rfl, rfl, h⟩
  | cons x hl ih =>
    intro ρ s s' h
    have hpick := stateRel_pick N ρ s s' h x
    cases hp : pick N s.1 s.2 x with
    | none =>
      left
      constructor
      · simp only [elimLoop, hp]
      · simp only [elimLoop, hpick, hp]
    | some chosen =>
      obtain ⟨hc1, hc2, _, _⟩ := pick_eq_some_inv N s.1 s.2 x chosen hp
      have hstep := stateRel_step N ρ s s' h chosen x hc1 hc2
      rcases ih ρ _ _ hstep with ⟨h1, h2⟩ | ⟨τ, t, t', h1, h2, h3⟩
      · left
        constructor
        · simp only [elimLoop, hp]
          exact h1
        · simp only [elimLoop, hpick, hp]
          exact h2
      · right
        refine ⟨τ, t, t', ?_, ?_, h3⟩
        · simp only [elimLoop, hp]
          exact h1
        · simp only [elimLoop, hpick, hp]
          exact h2
  | swap x y l =>
    intro ρ s s' h
    have hsw := elim_swap2 N s h.2.2.1 y x
    have hxy : elimLoop N s (y :: x :: l) = (elimLoop N s [y, x]).bind
        (fun s2 => elimLoop N s2 l) := elimLoop_append N s [y, x] l
    have hyx : elimLoop N s' (x :: y :: l) = (elimLoop N s' [x, y]).bind
        (fun s2 => elimLoop N s2 l) := elimLoop_append N s' [x, y] l
    rcases hsw with ⟨h1, h2⟩ | ⟨τ, t, t', h1, h2, h3⟩
    · -- both two-step prefixes crash on `s`; transport the `[x, y]` crash to `s'`
      rcases stateRel_loop N [x, y] ρ s s' h with ⟨_, h4⟩ | ⟨t, t', h4, _, _⟩
      · left
        constructor
        · rw [hxy, h1]
          rfl
        · rw [hyx, h4]
          rfl
      · rw [h4] at h2
        exact absurd h2 (by simp)
    · -- both two-step prefixes succeed on `s`; transport `[x, y]` to `s'`
      rcases stateRel_loop N [x, y] ρ s s' h with ⟨h4, _⟩ | ⟨t2, t2', h4, h5, h6⟩
      · rw [h4] at h2
        exact absurd h2 (by simp)
      · rw [h4] at h2
        injection h2 with h2
        subst h2
        have h7 : StateRel N (ρ.trans τ) t t2' := stateRel_trans N τ ρ t t2 t2' h3 h6
        rcases stateRel_loop N l (ρ.trans τ) t t2' h7 with ⟨h8, h9⟩ |
          ⟨t3, t3', h8, h9, h10⟩
        · left
          constructor
          · rw [hxy, h1]
            exact h8
          · rw [hyx, h5]
            exact h9
        · right
          refine ⟨ρ.trans τ, t3, t3', ?_, ?_, h10⟩
          · rw [hxy, h1]
            exact h8
          · rw [hyx, h5]
            exact h9
  | trans hl12 hl23 ih1 ih2 =>
    intro ρ s s' h
    have hrefl : StateRel N (Equiv.refl ℕ) s s := stateRel_refl N s h.2.2.1
    rcases ih1 (Equiv.refl ℕ) s s hrefl with ⟨h1, h2⟩ | ⟨τ, t, t2, h1, h2, h3⟩
    · rcases ih2 ρ s s' h with ⟨_, h4⟩ | ⟨τ', t2', t3, h4, _, _⟩
      · exact Or.inl ⟨h1, h4⟩
      · rw [h4] at h2
        exact absurd h2 (by simp)
    · rcases ih2 ρ s s' h with ⟨h4, _⟩ | ⟨τ', t2', t3, h4, h5, h6⟩
      · rw [h4] at h2
        exact absurd h2 (by simp)
      · rw [h4] at h2
        injection h2 with h2
        subst h2
        exact Or.inr ⟨τ'.trans τ, t, t3, h1, h5,
          stateRel_trans N τ τ' t _ t3 h3 h6⟩

theorem unitCols_step (N : ℕ) (done : List ℕ) (s : (ℕ → ℕ → ℝ) × List ℕ)
    (col chosen : ℕ) (hpick : pick N s.1 s.2 col = some chosen)
    (hd : UnitCols N done s) :
    UnitCols N (done ++ [col]) (elimStep N s.1 chosen col, chosen :: s.2) := by
  obtain ⟨hcN, hcu, hcp, _⟩ := pick_eq_some_inv N s.1 s.2 col chosen hpick
  intro c hc
  rcases List.mem_append.mp hc with hc1 | hc1
  · obtain ⟨w, hw1, hw2⟩ := hd c hc1
    have hwc : chosen ≠ w := fun h => hcu (h ▸ hw1)
    refine ⟨w, List.mem_cons_of_mem _ hw1, fun r hrN => ?_⟩
    show elimStep N s.1 chosen col r c = if r = w then 1 else 0
    by_cases hr : r = chosen
    · rw [hr, elimStep_self N s.1 chosen col c, hw2 chosen hcN, if_neg hwc,
        zero_div]
    · rw [elimStep_other N s.1 chosen col r c hr hrN, hw2 r hrN,
        hw2 chosen hcN, if_neg hwc, zero_div, mul_zero, sub_zero]
  · have hc2 : c = col := by
      simpa using hc1
    subst hc2
    refine ⟨chosen, List.mem_cons_self _ _, fun r hrN => ?_⟩
    show elimStep N s.1 chosen c r c = if r = chosen then 1 else 0
    by_cases hr : r = chosen
    · rw [hr, elimStep_self N s.1 chosen c c, div_self hcp, if_pos rfl]
    · rw [elimStep_other N s.1 chosen c r c hr hrN, div_self hcp, mul_one,
        sub_self, if_neg hr]

theorem elimLoop_unitCols (N : ℕ) (cols : List ℕ) :
    ∀ (done : List ℕ) (s t : (ℕ → ℕ → ℝ) × List ℕ),
    UnitCols N done s → elimLoop N s cols = some t →
    UnitCols N (done ++ cols) t := by
  induction cols with
  | nil =>
    intro done s t hd hloop
    simp only [elimLoop] at hloop
    cases hloop
    simpa using hd
  | cons col rest ih =>
    intro done s t hd hloop
    cases hp : pick N s.1 s.2 col with
    | none =>
      rw [elimLoop, hp] at hloop
      cases hloop
    | some chosen =>
      rw [elimLoop, hp] at hloop
      have hstep := unitCols_step N done s col chosen hp hd
      have := ih (done ++ [col]) _ t hstep hloop
      rwa [List.append_assoc, List.singleton_append] at this

theorem extractRow_of_unit (N : ℕ) (p : ℕ → ℕ → ℝ) (col w : ℕ) (hw : w < N)
    (hcol : ∀ r, r < N → p r col = if r = w then 1 else 0) :
    extractRow N p col = w := by
  unfold extractRow
  apply pyMax_range_eq_of_unique _ N w hw
  intro y hy hne
  rw [hcol y hy, hcol w hw, if_neg hne, if_pos rfl]
  norm_num

/-- Running the elimination on a column-relabelled array is the same as
running it on the original array with the relabelled processing order. -/
theorem elimLoop_relabel (N : ℕ) (g : ℕ → ℕ) (cols : List ℕ) :
    ∀ (P : ℕ → ℕ → ℝ) (u : List ℕ),
    elimLoop N ((fun r c => P r (g c)), u) cols =
      (elimLoop N (P, u) (cols.map g)).map
        (fun t => ((fun r c => t.1 r (g c)), t.2)) := by
  induction cols with
  | nil =>
    intro P u
    rfl
  | cons col rest ih =>
    intro P u
    have hpick : pick N (fun r c => P r (g c)) u col = pick N P u (g col) := rfl
    rw [List.map_cons]
    cases hp : pick N P u (g col) with
    | none =>
      rw [elimLoop, hpick, hp, elimLoop, hp]
      rfl
    | some chosen =>
      rw [elimLoop, hpick, hp, elimLoop, hp]
      exact ih (elimStep N P chosen (g col)) (chosen :: u)

/-- From a permutation of two lists, an index relabelling `g` such that entry
`i` of the second list is entry `g i` of the first, `g` fixes indices beyond
the common length, and `g` permutes the index range. -/
theorem perm_index_map (l l' : List ℕ) (h : l.Perm l') :
    ∃ g : ℕ → ℕ,
      (∀ i, i < l.length → g i < l.length ∧ l'.getD i 0 = l.getD (g i) 0) ∧
      (∀ i, l.length ≤ i → g i = i) ∧
      ((List.range l.length).map g).Perm (List.range l.length) := by
  induction h with
  | nil =>
    exact ⟨id, fun i hi => absurd hi (by simp), fun i _ => rfl, by simp⟩
  | cons x hl ih =>
    obtain ⟨g, hg1, hg2, hg3⟩ := ih
    refine ⟨fun i => Nat.casesOn i 0 (fun j => g j + 1), fun i hi => ?_,
      fun i hi => ?_, ?_⟩
    · match i with
      | 0 =>
        exact ⟨by simp, rfl⟩
      | (j + 1) =>
        have hj : j < _ := Nat.lt_of_succ_lt_succ (by simpa using hi)
        obtain ⟨hb, he⟩ := hg1 j hj
        refine ⟨by simpa using Nat.succ_lt_succ hb, ?_⟩
        simpa using he
    · match i with
      | (j + 1) =>
        have hj : _ ≤ j := Nat.le_of_succ_le_succ (by simpa using hi)
        simp only [hg2 j hj]
    · rw [List.length_cons, List.range_succ_eq_map, List.map_cons,
        List.map_map]
      refine List.Perm.cons 0 ?_
      have hc := hg3.map Nat.succ
      rw [List.map_map] at hc
      exact hc
  | swap x y l =>
    refine ⟨fun i => Nat.casesOn i 1 (fun j => Nat.casesOn j 0 (fun k => k + 2)),
      fun i hi => ?_, fun i hi => ?_, ?_⟩
    · match i with
      | 0 =>
        exact ⟨by simp, rfl⟩
      | 1 =>
        exact ⟨by simp, rfl⟩
      | (j + 2) =>
        exact ⟨by simpa using hi, rfl⟩
    · match i with
      | (j + 2) => rfl
    · have hr2 : List.range (y :: x :: l).length
          = 0 :: 1 :: ((List.range l.length).map Nat.succ).map Nat.succ := by
        rw [List.length_cons, List.length_cons, List.range_succ_eq_map,
          List.range_succ_eq_map, List.map_cons]
      rw [hr2, List.map_cons, List.map_cons]
      have hc : (((List.range l.length).map Nat.succ).map Nat.succ).map
          (fun i => Nat.casesOn i 1
            (fun j => Nat.casesOn j 0 (fun k : ℕ => k + 2)))
          = ((List.range l.length).map Nat.succ).map Nat.succ := by
        rw [List.map_map, List.map_map, List.map_map]
        rfl
      rw [hc]
      exact List.Perm.swap 0 1 _
  | trans hl12 hl23 ih1 ih2 =>
    obtain ⟨g1, h11, h12, h13⟩ := ih1
    obtain ⟨g2, h21, h22, h23⟩ := ih2
    have hlen := hl12.length_eq
    refine ⟨fun i => g1 (g2 i), fun i hi => ?_, fun i hi => ?_, ?_⟩
    · obtain ⟨hb2, he2⟩ := h21 i (by omega)
      obtain ⟨hb1, he1⟩ := h11 (g2 i) (by omega)
      refine ⟨hb1, ?_⟩
      rw [he2, he1]
    · show g1 (g2 i) = i
      rw [h22 i (by omega), h12 i (by omega)]
    · have h23' := h23.map g1
      rw [List.map_map] at h23'
      rw [← hlen] at h23'
      exact h23'.trans h13

/-- The linear system built for a permuted DOF list is the column-relabelled
linear system of the original DOF list. -/
theorem probInit_relabel (N : ℕ) (m1 m2 : Mat) (q q' : List ℕ) (g : ℕ → ℕ)
    (hlen : q'.length = q.length)
    (hg : ∀ i, i < q.length → g i < q.length ∧ q'.getD i 0 = q.getD (g i) 0)
    (hfix : ∀ i, q.length ≤ i → g i = i) :
    probInit N m1 m2 q' = fun r c => probInit N m1 m2 q r (g c) := by
  funext r c
  show probInit N m1 m2 q' r c = probInit N m1 m2 q r (g c)
  unfold probInit
  rw [hlen]
  by_cases hc : c < q.length
  · obtain ⟨h1, h2⟩ := hg c hc
    rw [if_pos hc, if_pos h1, h2]
  · have hgc : g c = c := hfix c (le_of_not_lt hc)
    rw [hgc, if_neg hc, if_neg hc]

theorem applyPhases_range (N : ℕ) (p : ℕ → ℕ → ℝ) (q : List ℕ) (m1 : Mat)
    (row c : ℕ) :
    applyPhases N p q m1 row c =
      m1 row c * ((List.range q.length).map (fun j =>
        if row &&& (1 <<< q.getD j 0) ≠ 0 then
          Complex.exp ((p (extractRow N p j) q.length : ℝ) * Complex.I)
        else 1)).prod := by
  unfold applyPhases
  have he : q.enum = (List.range q.length).map (fun j => (j, q.getD j 0)) := by
    show List.enumFrom 0 q = _
    rw [enumFrom_eq_range_map q 0]
    refine List.map_congr_left fun j hj => ?_
    simp
  rw [he, List.map_map]
  rfl

/-- `_cancel_qubit_phase` returns literally the same result (same corrected
matrix, or a raise in both cases) for any two DOF lists that are permutations
of one another, under exact arithmetic. -/
theorem cancel_perm (N : ℕ) (m1 m2 : Mat) (q q' : List ℕ) (hperm : q.Perm q') :
    cancelQubitPhase N m1 m2 q = cancelQubitPhase N m1 m2 q' := by
  obtain ⟨g, hg1, hg2, hg3⟩ := perm_index_map q q' hperm
  have hlen : q'.length = q.length := hperm.length_eq.symm
  have hP : probInit N m1 m2 q' = fun r c => probInit N m1 m2 q r (g c) :=
    probInit_relabel N m1 m2 q q' g hlen hg1 hg2
  unfold cancelQubitPhase
  rw [hlen, hP,
    elimLoop_relabel N g (List.range q.length) (probInit N m1 m2 q) []]
  have hrel := elimLoop_perm N ((List.range q.length).map g)
    (List.range q.length) hg3 (Equiv.refl ℕ) (probInit N m1 m2 q, [])
    (probInit N m1 m2 q, [])
    (stateRel_refl N _ (fun r hr => absurd hr (List.not_mem_nil r)))
  rcases hrel with ⟨h1, h2⟩ | ⟨τ, t, t', h1, h2, h3⟩
  · rw [h2, h1]
    rfl
  · rw [h2, h1, Option.map_some']
    have hut : UnitCols N ((List.range q.length).map g) t := by
      have h0 := elimLoop_unitCols N ((List.range q.length).map g) []
        (probInit N m1 m2 q, []) t
        (fun c hc => absurd hc (List.not_mem_nil c)) h1
      simpa using h0
    have hut' : UnitCols N (List.range q.length) t' := by
      have h0 := elimLoop_unitCols N (List.range q.length) []
        (probInit N m1 m2 q, []) t'
        (fun c hc => absurd hc (List.not_mem_nil c)) h2
      simpa using h0
    have hgq : g q.length = q.length := hg2 q.length le_rfl
    have happ : applyPhases N t'.1 q m1
        = applyPhases N (fun r c => t.1 r (g c)) q' m1 := by
      funext row col
      rw [applyPhases_range N t'.1 q m1 row col,
        applyPhases_range N (fun r c => t.1 r (g c)) q' m1 row col, hlen]
      congr 1
      have hstep1 : (List.range q.length).map (fun j =>
          if row &&& (1 <<< q'.getD j 0) ≠ 0 then
            Complex.exp
              (((fun r c => t.1 r (g c))
                  (extractRow N (fun r c => t.1 r (g c)) j) q.length : ℝ)
                * Complex.I)
          else 1)
          = ((List.range q.length).map g).map (fun k =>
            if row &&& (1 <<< q.getD k 0) ≠ 0 then
              Complex.exp ((t.1 (extractRow N t.1 k) q.length : ℝ) * Complex.I)
            else 1) := by
        rw [List.map_map]
        refine List.map_congr_left fun j hj => ?_
        obtain ⟨_, he⟩ := hg1 j (List.mem_range.mp hj)
        show (if row &&& (1 <<< q'.getD j 0) ≠ 0 then
            Complex.exp ((t.1 (extractRow N t.1 (g j)) (g q.length) : ℝ)
              * Complex.I)
          else 1)
          = (if row &&& (1 <<< q.getD (g j) 0) ≠ 0 then
            Complex.exp ((t.1 (extractRow N t.1 (g j)) q.length : ℝ)
              * Complex.I)
          else 1)
        rw [hgq, he]
      rw [hstep1, List.Perm.prod_eq (hg3.map _)]
      congr 1
      refine List.map_congr_left fun j hj => ?_
      have hjmem : j ∈ (List.range q.length).map g := (hg3.mem_iff).mpr hj
      obtain ⟨v, hv1, hv2⟩ := hut j hjmem
      obtain ⟨w, hw1, hw2⟩ := hut' j hj
      have hvN : v < N := h3.2.2.1 v hv1
      have hwN : w < N := h3.2.2.1 w ((h3.2.1 w).mpr hw1)
      have hextA : extractRow N t'.1 j = w := extractRow_of_unit N t'.1 j w hwN hw2
      have hextT : extractRow N t.1 j = v := extractRow_of_unit N t.1 j v hvN hv2
      have hτw : τ w = v := by
        have h1' : t'.1 w j = 1 := by
          rw [hw2 w hwN]
          simp
        rw [h3.2.2.2 w j] at h1'
        have hτN : τ w < N := stateRel_lt N τ t t' h3 w hwN
        rw [hv2 (τ w) hτN] at h1'
        by_contra hne
        rw [if_neg hne] at h1'
        exact one_ne_zero h1'.symm
      show (if row &&& (1 <<< q.getD j 0) ≠ 0 then
          Complex.exp ((t'.1 (extractRow N t'.1 j) q.length : ℝ) * Complex.I)
        else 1)
        = (if row &&& (1 <<< q.getD j 0) ≠ 0 then
          Complex.exp ((t.1 (extractRow N t.1 j) q.length : ℝ) * Complex.I)
        else 1)
      rw [hextA, hextT, h3.2.2.2 w q.length, hτw]
    show some (applyPhases N t'.1 q m1, m2)
      = some (applyPhases N (fun r c => t.1 r (g c)) q' m1, m2)
    rw [happ]

/-- C3: for every pair of equal-shape matrices, every DOF sequence and every
permutation of it, the verdict of the equivalence comparison — running
`_cancel_qubit_phase` on a copy of `m1` against `m2` and then comparing up to
a global phase within tolerance — is identical for the two orders, including
whether the solver raises: under exact arithmetic the corrected matrix itself
is order-independent. -/
theorem C3_dof_order_invariant (N : ℕ) (m1 m2 : Mat) (dofs dofs' : List ℕ)
    (atol : ℝ) (hperm : dofs.Perm dofs') :
    cancelVerdict N m1 m2 dofs atol = cancelVerdict N m1 m2 dofs' atol := by
  unfold cancelVerdict
  rw [cancel_perm N m1 m2 dofs dofs' hperm]

/-- Witness for C3 at a concrete input: `N = 2`, all-ones matrices, the DOF
lists `[0, 1]` and `[1, 0]`, tolerance `0`. -/
theorem C3_dof_order_invariant_witness :
    ([0, 1] : List ℕ).Perm [1, 0] ∧
    cancelVerdict 2 oneMat oneMat [0, 1] 0
      = cancelVerdict 2 oneMat oneMat [1, 0] 0 :=
  ⟨by decide, C3_dof_order_invariant 2 oneMat oneMat [0, 1] [1, 0] 0 (by decide)⟩

end CircuitCompare
